import Mathlib

/-!
Verification development for the HotWordsLex extraction and deduplication
pipeline.  The Python modules `filter.py`, `deduplicator.py`,
`hotword_store.py`, `key_pool.py` and `extractor.py` are shallowly embedded:
strings become `List Char`, Python `dict`s become insertion-ordered
association lists, `collections.Counter` becomes an association list from
keys to counts, and the imperative loops become folds.
-/

namespace HotwordsLex

/-- Lookup in an insertion-ordered association list (Python `d[k]` / `in`). -/
def dlookup {α β : Type} [DecidableEq α] : List (α × β) → α → Option β
  | [], _ => none
  | (k, v) :: rest, key => if k = key then some v else dlookup rest key

/-- Update the value stored at an existing key in place (Python mutation of
`d[k]` for a present key); keys are unique in every list we build. -/
def dmodify {α β : Type} [DecidableEq α] (key : α) (f : β → β) :
    List (α × β) → List (α × β)
  | [] => []
  | (k, v) :: rest =>
      if k = key then (k, f v) :: rest else (k, v) :: dmodify key f rest

/-- Python dict assignment `d[k] = v`: overwrite in place when the key is
present, append otherwise. -/
def dinsert {α β : Type} [DecidableEq α] (key : α) (v : β) :
    List (α × β) → List (α × β)
  | [] => [(key, v)]
  | (k, w) :: rest =>
      if k = key then (k, v) :: rest else (k, w) :: dinsert key v rest

/-- Python `del d[k]`: remove the entry, preserving the order of the rest. -/
def derase {α β : Type} [DecidableEq α] (key : α) :
    List (α × β) → List (α × β)
  | [] => []
  | (k, v) :: rest => if k = key then rest else (k, v) :: derase key rest

/-- `collections.Counter` increment `c[k] += n`: a missing key starts at 0
and is appended at the end, matching insertion order of Python dicts. -/
def cinc {α : Type} [DecidableEq α] (key : α) (n : Nat) :
    List (α × Nat) → List (α × Nat)
  | [] => [(key, n)]
  | (k, m) :: rest =>
      if k = key then (k, m + n) :: rest else (k, m) :: cinc key n rest

/-- `Counter` addition `a += b`: keys of `a` keep their position, new keys
of `b` are appended in the order they occur in `b`. -/
def cadd {α : Type} [DecidableEq α] (a b : List (α × Nat)) : List (α × Nat) :=
  b.foldl (fun acc p => cinc p.1 p.2 acc) a

/-- `Counter.most_common(1)[0][0]`: the key with the largest count; Python
sorting is stable, so ties go to the earliest-inserted key. -/
def mostCommonKey {α : Type} (l : List (α × Nat)) : Option α :=
  (l.foldl
    (fun best p =>
      match best with
      | none => some p
      | some q => if q.2 < p.2 then some p else some q)
    none).map Prod.fst

@[simp] theorem dlookup_nil {α β : Type} [DecidableEq α] (key : α) :
    dlookup ([] : List (α × β)) key = none := rfl

@[simp] theorem dlookup_cons {α β : Type} [DecidableEq α] (k : α) (v : β)
    (rest : List (α × β)) (key : α) :
    dlookup ((k, v) :: rest) key
      = if k = key then some v else dlookup rest key := rfl

@[simp] theorem dmodify_nil {α β : Type} [DecidableEq α] (key : α)
    (f : β → β) : dmodify key f ([] : List (α × β)) = [] := rfl

@[simp] theorem dmodify_cons {α β : Type} [DecidableEq α] (key : α)
    (f : β → β) (k : α) (v : β) (rest : List (α × β)) :
    dmodify key f ((k, v) :: rest)
      = if k = key then (k, f v) :: rest else (k, v) :: dmodify key f rest :=
  rfl

@[simp] theorem dinsert_nil {α β : Type} [DecidableEq α] (key : α) (v : β) :
    dinsert key v ([] : List (α × β)) = [(key, v)] := rfl

@[simp] theorem dinsert_cons {α β : Type} [DecidableEq α] (key : α) (v : β)
    (k : α) (w : β) (rest : List (α × β)) :
    dinsert key v ((k, w) :: rest)
      = if k = key then (k, v) :: rest else (k, w) :: dinsert key v rest :=
  rfl

@[simp] theorem derase_nil {α β : Type} [DecidableEq α] (key : α) :
    derase key ([] : List (α × β)) = [] := rfl

@[simp] theorem derase_cons {α β : Type} [DecidableEq α] (key : α) (k : α)
    (v : β) (rest : List (α × β)) :
    derase key ((k, v) :: rest)
      = if k = key then rest else (k, v) :: derase key rest := rfl

@[simp] theorem cinc_nil {α : Type} [DecidableEq α] (key : α) (n : Nat) :
    cinc key n ([] : List (α × Nat)) = [(key, n)] := rfl

@[simp] theorem cinc_cons {α : Type} [DecidableEq α] (key : α) (n : Nat)
    (k : α) (m : Nat) (rest : List (α × Nat)) :
    cinc key n ((k, m) :: rest)
      = if k = key then (k, m + n) :: rest else (k, m) :: cinc key n rest :=
  rfl

/-- Characters treated as whitespace by Python `str.strip()` and by the
regex class `\s` (the ASCII whitespace characters plus the no-break space
and the ideographic space, the only non-ASCII whitespace this corpus uses). -/
def isPyWS (c : Char) : Bool :=
  c = ' ' || c = '\t' || c = '\n' || c = '\r' || c = '\x0b' || c = '\x0c' ||
  c = ' ' || c = '　'

/-- Python `str.strip()`. -/
def pyStrip (cs : List Char) : List Char :=
  ((cs.dropWhile isPyWS).reverse.dropWhile isPyWS).reverse

/-- Python `str.lower()` (ASCII letters; the full-width letters this code
lowercases have already been folded to ASCII by `normalize_term`). -/
def pyLower (cs : List Char) : List Char := cs.map Char.toLower

/-- Python `str.endswith`. -/
def endswith (suf cs : List Char) : Bool :=
  suf.length ≤ cs.length && cs.drop (cs.length - suf.length) = suf

/-- Full-width to half-width folding of one character
(`filter.normalize_term`, lines 12-22): the ideographic space becomes an
ASCII space and code points 0xFF01-0xFF5E shift down by 0xFEE0. -/
def toHalfWidth (c : Char) : Char :=
  if c = '　' then ' '
  else if 0xFF01 ≤ c.toNat ∧ c.toNat ≤ 0xFF5E then Char.ofNat (c.toNat - 0xFEE0)
  else c

/-- `filter.normalize_term`: full-width fold, then strip, then lowercase. -/
def normalize_term (cs : List Char) : List Char :=
  pyLower (pyStrip (cs.map toHalfWidth))

/-- A Python term dict as it flows through the pipeline: `t.get("term", "")`,
`t.get("category", default)` and `t.get("frequency", 0)`; absent keys are
modelled by `none`. -/
structure TermDict where
  term : List Char
  category : Option (List Char) := none
  frequency : Option Nat := none
deriving DecidableEq, Repr

/-- One value of the frequency table during aggregation
(`filter.build_frequency_table`): the visible `term`, `frequency`,
`category` fields plus the two working counters. -/
structure FreqEntry where
  term : List Char
  frequency : Nat
  category : List Char
  categories : List (List Char × Nat)
  caseVariants : List (List Char × Nat)
deriving DecidableEq, Repr

/-- A frequency-table value after the final pass deleted the two counters. -/
structure FinalEntry where
  term : List Char
  frequency : Nat
  category : List Char
deriving DecidableEq, Repr

abbrev FreqTable := List (List Char × FreqEntry)

/-- `filter._try_merge_plural` (lines 26-38). -/
def try_merge_plural (key : List Char) (freqTable : FreqTable) :
    Option (List Char) :=
  if endswith ['s'] key ∧ 2 < key.length then
    let singular := key.dropLast
    if (dlookup freqTable singular).isSome then some singular
    else if endswith ['e', 's'] key ∧ 3 < key.length then
      let singularEs := key.dropLast.dropLast
      if (dlookup freqTable singularEs).isSome then some singularEs else none
    else none
  else none

/-- The per-occurrence increments applied to a frequency-table entry
(`filter.build_frequency_table`, lines 65-67 and 79-81). -/
def bumpEntry (term category : List Char) (e : FreqEntry) : FreqEntry :=
  { e with
    frequency := e.frequency + 1
    categories := cinc category 1 e.categories
    caseVariants := cinc term 1 e.caseVariants }

/-- One iteration of the first pass of `filter.build_frequency_table`
(lines 51-81). -/
def firstPassStep (tbl : FreqTable) (t : TermDict) : FreqTable :=
  let term := pyStrip t.term
  if term = [] then tbl
  else
    let key := normalize_term term
    if key = [] then tbl
    else
      let category := t.category.getD ("AI".data)
      match try_merge_plural key tbl with
      | some target => dmodify target (bumpEntry term category) tbl
      | none =>
          let tbl' :=
            if (dlookup tbl key).isSome then tbl
            else tbl ++ [(key,
              { term := term, frequency := 0, category := category,
                categories := [], caseVariants := [] })]
          dmodify key (bumpEntry term category) tbl'

/-- Merging a plural entry into its singular entry in the second pass of
`filter.build_frequency_table` (lines 90-92). -/
def mergeEntries (dst src : FreqEntry) : FreqEntry :=
  { dst with
    frequency := dst.frequency + src.frequency
    categories := cadd dst.categories src.categories
    caseVariants := cadd dst.caseVariants src.caseVariants }

/-- The second pass of `filter.build_frequency_table` (lines 84-93): walk
the snapshot of the keys, merge every key ending in an ASCII `s` (length
above 2) into its singular counterpart when that counterpart is a key, and
record the merged key for deletion. -/
def secondPassLoop :
    List (List Char) → FreqTable → List (List Char) →
      FreqTable × List (List Char)
  | [], tbl, toRemove => (tbl, toRemove)
  | key :: rest, tbl, toRemove =>
      if endswith ['s'] key ∧ 2 < key.length then
        let singular := key.dropLast
        match dlookup tbl singular, dlookup tbl key with
        | some _, some src =>
            if singular ≠ key then
              secondPassLoop rest
                (dmodify singular (fun dst => mergeEntries dst src) tbl)
                (toRemove ++ [key])
            else secondPassLoop rest tbl toRemove
        | _, _ => secondPassLoop rest tbl toRemove
      else secondPassLoop rest tbl toRemove

/-- The final pass of `filter.build_frequency_table` (lines 98-104): the
display spelling becomes the most frequent case variant and the category
the most voted one (ties to the first seen), and the counters are deleted. -/
def finalizeEntry (e : FreqEntry) : FinalEntry :=
  { term := (mostCommonKey e.caseVariants).getD e.term
    frequency := e.frequency
    category := (mostCommonKey e.categories).getD e.category }

/-- `filter.build_frequency_table` (lines 41-106). -/
def build_frequency_table (rawTerms : List TermDict) :
    List (List Char × FinalEntry) :=
  let tbl := rawTerms.foldl firstPassStep []
  let pass2 := secondPassLoop (tbl.map Prod.fst) tbl []
  let tbl3 := pass2.2.foldl (fun t k => derase k t) pass2.1
  tbl3.map (fun p => (p.1, finalizeEntry p.2))

/-- Stable insertion into a frequency-descending list: the element goes in
front of the first entry whose frequency does not exceed it, so with
`List.foldr` over the input an earlier element stays in front of every
later element of equal frequency. -/
def insertByFreqDesc (e : FinalEntry) : List FinalEntry → List FinalEntry
  | [] => [e]
  | f :: rest =>
      if f.frequency ≤ e.frequency then e :: f :: rest
      else f :: insertByFreqDesc e rest

/-- The stable descending sort of Python `list.sort(key=frequency,
reverse=True)`. -/
def sortByFreqDesc (l : List FinalEntry) : List FinalEntry :=
  l.foldr insertByFreqDesc []

/-- `filter.filter_by_frequency` (lines 109-113): keep entries at or above
the threshold and sort by frequency, descending and stable. -/
def filter_by_frequency (tbl : List (List Char × FinalEntry))
    (minFreq : Nat) : List FinalEntry :=
  sortByFreqDesc ((tbl.map Prod.snd).filter (fun e => minFreq ≤ e.frequency))

/-- `filter._COMMON_CHINESE_WORDS`. -/
def commonChineseWords : List (List Char) :=
  (["手机", "电脑", "人工智能", "视频", "新闻", "音乐", "电影", "电视",
    "游戏", "购物", "旅游", "健康", "教育", "工作", "生活", "科技",
    "互联网", "网络", "软件", "硬件", "数据", "信息", "系统", "平台",
    "应用", "服务", "技术", "产品", "公司", "市场", "用户", "内容",
    "发展", "趋势", "未来", "创新", "智能", "数字", "云计算", "大数据",
    "物联网", "机器人", "自动化", "虚拟现实", "增强现实"] :
    List String).map String.data

/-- `filter._COMMON_ENGLISH`. -/
def commonEnglishWords : List (List Char) :=
  (["the", "a", "an", "is", "are", "was", "were", "be", "been",
    "new", "old", "how", "what", "why", "who", "when", "where",
    "build", "make", "use", "using", "used", "get", "set",
    "open", "close", "start", "stop", "run", "test", "check",
    "code", "data", "web", "app", "api", "tool", "tools",
    "top", "best", "first", "last", "next", "update", "release"] :
    List String).map String.data

/-- `filter._PURE_CHINESE`: the regex `[一-鿿]+` anchored on both
sides, i.e. a nonempty string of CJK unified ideographs. -/
def isPureChinese (cs : List Char) : Bool :=
  decide (cs ≠ []) && cs.all (fun c => 0x4e00 ≤ c.toNat && c.toNat ≤ 0x9fff)

/-- The keep-condition of `filter.asr_filter` (lines 158-176), with the
four sequential `continue` checks in source order. -/
def asrKeep (t : TermDict) : Bool :=
  let term := pyStrip t.term
  if term = [] ∨ term.length < 2 then false
  else if commonEnglishWords.contains (pyLower term) then false
  else if commonChineseWords.contains term then false
  else if isPureChinese term ∧ term.length ≤ 2 ∧ commonChineseWords.contains term
    then false
  else true

/-- `filter.asr_filter` (lines 140-181). -/
def asr_filter (terms : List TermDict) : List TermDict :=
  terms.filter asrKeep

/-- The variant-qualifier words of `deduplicator._VARIANT_PATTERN`. -/
def variantWords : List (List Char) :=
  (["Gen", "Ultra", "Pro", "Flash", "Mini", "Lite", "Max", "Plus", "Opus",
    "Sonnet", "Haiku"] : List String).map String.data

def isAsciiDigit (c : Char) : Bool := '0' ≤ c && c ≤ '9'

/-- The regex class `\w` restricted to the ASCII range this corpus uses. -/
def isWordChar (c : Char) : Bool := c.isAlpha || isAsciiDigit c || c = '_'

/-- Does the whole string match `(Gen|Ultra|...|Haiku)\s*\d*` up to its
end, case-insensitively? -/
def variantCore (cs : List Char) : Bool :=
  variantWords.any fun w =>
    pyLower (cs.take w.length) = pyLower w &&
    ((cs.drop w.length).dropWhile isPyWS).all isAsciiDigit

/-- Does the whole string match `[-\s]?(Gen|...|Haiku)\s*\d*$`
(`deduplicator._VARIANT_PATTERN`)?  The optional separator changes which
characters the regex consumes but not the matched span, so a plain
disjunction is faithful for substitution purposes. -/
def variantSuffixMatch (cs : List Char) : Bool :=
  variantCore cs ||
  (match cs with
   | c :: rest => (c = '-' || isPyWS c) && variantCore rest
   | [] => false)

/-- The continuation of a digit run in `deduplicator._VERSION_PATTERN`:
accepts `\d*(\.\d+)*(-\w+)?` against the whole string (additional digits
extend the current `\d+` group). -/
def dotTail : List Char → Bool
  | [] => true
  | c :: rest =>
      if isAsciiDigit c then dotTail rest
      else if c = '.' then
        match rest with
        | d :: rest2 => isAsciiDigit d && dotTail rest2
        | [] => false
      else if c = '-' then decide (rest ≠ []) && rest.all isWordChar
      else false

/-- `\d+(\.\d+)*(-\w+)?$` matched against the whole string. -/
def versionDigits : List Char → Bool
  | [] => false
  | c :: rest => isAsciiDigit c && dotTail rest

/-- `[vV]?\d+(\.\d+)*(-\w+)?$` matched against the whole string. -/
def versionBody (cs : List Char) : Bool :=
  versionDigits cs ||
  (match cs with
   | c :: rest => (c = 'v' || c = 'V') && versionDigits rest
   | [] => false)

/-- Does the whole string match `deduplicator._VERSION_PATTERN`?  The
second regex alternative `-[vV]\d+...` is subsumed by the first
`[-\s][vV]?\d+...`, so only the first needs modelling. -/
def versionSuffixMatch (cs : List Char) : Bool :=
  match cs with
  | c :: rest => (c = '-' || isPyWS c) && versionBody rest
  | [] => false

/-- `re.sub(pattern, "", s)` for an end-anchored pattern: drop the suffix
starting at the leftmost position from which the pattern matches through
to the end of the string; keep the string if no position matches. -/
def stripSuffixMatch (p : List Char → Bool) : List Char → List Char
  | [] => []
  | c :: rest => if p (c :: rest) then [] else c :: stripSuffixMatch p rest

/-- `deduplicator.extract_base_name` (lines 29-41): strip the variant
suffix, then the version suffix, then strip and lowercase. -/
def extract_base_name (term : List Char) : List Char :=
  let base := stripSuffixMatch variantSuffixMatch term
  let base2 := stripSuffixMatch versionSuffixMatch base
  pyLower (pyStrip base2)

/-- The store-derived index `lowercase term -> (original, category)`
(`HotwordStore._all_terms_info`). -/
abbrev StoreInfo := List (List Char × (List Char × List Char))

/-- `HotwordStore.get_term_info` (lines 166-172). -/
def get_term_info (info : StoreInfo) (word : List Char) :
    Option (List Char × List Char) :=
  dlookup info (pyLower word)

/-- The base-name index built by `SmartDeduplicator.__init__`
(lines 74-81): walk the store index in order and append each
`(original, category)` pair to the bucket of its nonempty base name. -/
def buildBaseNameIndex (info : StoreInfo) :
    List (List Char × List (List Char × List Char)) :=
  info.foldl
    (fun idx p =>
      let base := extract_base_name p.2.1
      if base = [] then idx
      else
        match dlookup idx base with
        | some l => dinsert base (l ++ [p.2]) idx
        | none => idx ++ [(base, [p.2])])
    []

/-- A `skipped_exact` record: the candidate plus the existing spelling and
category cited in the reason string. -/
structure ExactSkip where
  term : List Char
  existingTerm : List Char
  existingCat : List Char
deriving DecidableEq, Repr

/-- A `skipped_plural` record: the candidate, the kept existing form and
the category cited in the reason string. -/
structure PluralSkip where
  term : List Char
  kept : List Char
  existingCat : List Char
deriving DecidableEq, Repr

/-- A `version_warnings` record. -/
structure VersionWarn where
  newTerm : List Char
  existingTerm : List Char
  baseName : List Char
deriving DecidableEq, Repr

/-- An `added` record (`deduplicator._check`, lines 176-180). -/
structure AddedEntry where
  term : List Char
  category : List Char
  frequency : Nat
deriving DecidableEq, Repr

/-- `deduplicator.DeduplicationResult`: the four append-only buckets. -/
structure DedupResultS where
  added : List AddedEntry
  skipped_exact : List ExactSkip
  skipped_plural : List PluralSkip
  version_warnings : List VersionWarn
deriving DecidableEq, Repr

def emptyDedupResult : DedupResultS := ⟨[], [], [], []⟩

abbrev BaseNameIndex := List (List Char × List (List Char × List Char))

/-- Rule 4 of `SmartDeduplicator._check` (lines 159-173): the first store
entry sharing the base name whose lowercase differs from the candidate
yields one warning. -/
def ruleFourWarn (baseIdx : BaseNameIndex) (term : List Char) :
    Option VersionWarn :=
  let base := extract_base_name term
  if base = [] then none
  else
    match dlookup baseIdx base with
    | none => none
    | some versions =>
        match versions.find? (fun q => pyLower q.1 ≠ pyLower term) with
        | some q => some ⟨term, q.1, base⟩
        | none => none

/-- Rule 2a of `SmartDeduplicator._check` (lines 123-145): a
plural-looking candidate against the stored singular, with the trailing
`es` fallback. -/
def ruleTwoA (info : StoreInfo) (term lower : List Char) :
    Option PluralSkip :=
  if endswith ['s'] lower ∧ 2 < lower.length then
    match get_term_info info lower.dropLast with
    | some io => some ⟨term, io.1, io.2⟩
    | none =>
        if endswith ['e', 's'] lower ∧ 3 < lower.length then
          (get_term_info info lower.dropLast.dropLast).map
            (fun io => ⟨term, io.1, io.2⟩)
        else none
  else none

/-- `SmartDeduplicator._check` (lines 105-181), with the rules in source
order: exact match, plural against singular (with the `es` fallback),
singular against plural, then the non-blocking version warning before the
term is added.  Returns the updated buckets and the add decision. -/
def checkTerm (info : StoreInfo) (baseIdx : BaseNameIndex)
    (st : DedupResultS) (term : List Char) (entry : TermDict) :
    DedupResultS × Bool :=
  let lower := pyLower term
  let freq := entry.frequency.getD 0
  let cat := entry.category.getD ("AI".data)
  match get_term_info info term with
  | some io =>
      ({ st with skipped_exact := st.skipped_exact ++ [⟨term, io.1, io.2⟩] },
       false)
  | none =>
      match ruleTwoA info term lower with
      | some ps =>
          ({ st with skipped_plural := st.skipped_plural ++ [ps] }, false)
      | none =>
          match get_term_info info (lower ++ ['s']) with
          | some io =>
              ({ st with
                  skipped_plural := st.skipped_plural ++ [⟨term, io.1, io.2⟩] },
               false)
          | none =>
              let st' :=
                match ruleFourWarn baseIdx term with
                | some w =>
                    { st with
                      version_warnings := st.version_warnings ++ [w] }
                | none => st
              ({ st' with added := st'.added ++ [⟨term, cat, freq⟩] }, true)

/-- One iteration of `SmartDeduplicator.deduplicate` (lines 94-101). -/
def dedupStep (info : StoreInfo) (baseIdx : BaseNameIndex)
    (acc : List TermDict × DedupResultS) (t : TermDict) :
    List TermDict × DedupResultS :=
  let term := pyStrip t.term
  if term = [] then acc
  else
    let step := checkTerm info baseIdx acc.2 term t
    (if step.2 then acc.1 ++ [t] else acc.1, step.1)

/-- `SmartDeduplicator.deduplicate` (lines 84-103): strip each candidate,
drop blank ones, run `_check`, and return the candidates that were added,
in input order, together with the final buckets. -/
def deduplicate (info : StoreInfo) (baseIdx : BaseNameIndex)
    (terms : List TermDict) : List TermDict × DedupResultS :=
  terms.foldl (dedupStep info baseIdx) ([], emptyDedupResult)

/-- `hotword_store.CATEGORY_ALIASES`. -/
def categoryAliases : List (List Char × List Char) :=
  ([("ai", "AI"), ("编程", "编程"), ("职场", "职场"), ("数码", "数码"),
    ("汽车", "汽车"), ("金融", "金融"), ("社交", "社交"), ("购物", "购物"),
    ("设计", "设计"), ("健康", "健康"), ("旅游", "旅游"), ("文娱", "文娱"),
    ("营销", "营销"), ("法律", "法律"), ("人力", "人力"), ("教育", "教育"),
    ("房产", "房产"), ("运动", "运动"), ("政务", "政务"),
    ("人工智能", "AI"), ("机器学习", "AI"), ("深度学习", "AI"),
    ("大模型", "AI"), ("nlp", "AI"), ("自然语言处理", "AI"),
    ("计算机视觉", "AI"), ("科学", "AI"), ("物理", "AI"), ("数学", "AI"),
    ("天文", "AI"),
    ("前端", "编程"), ("后端", "编程"), ("devops", "编程"),
    ("数据库", "编程"), ("语言", "编程"), ("工具", "编程"), ("安全", "编程"),
    ("开发", "编程"), ("技术", "编程"), ("开源", "编程"), ("web", "编程"),
    ("programming", "编程"), ("software", "编程"),
    ("infrastructure", "编程"), ("cloud", "编程"),
    ("硬件", "数码"), ("电子", "数码"), ("芯片", "数码"), ("手机", "数码"),
    ("消费电子", "数码"), ("科技", "数码"),
    ("区块链", "金融"), ("加密货币", "金融"), ("crypto", "金融"),
    ("经济", "金融"), ("投资", "金融"),
    ("娱乐", "文娱"), ("影视", "文娱"), ("游戏", "文娱"), ("音乐", "文娱"),
    ("动漫", "文娱"), ("综艺", "文娱"),
    ("社会", "社交"), ("时事", "社交"), ("新闻", "社交"), ("热点", "社交"),
    ("网络", "社交"),
    ("军事", "政务"), ("政治", "政务"), ("国际", "政务"), ("历史", "文娱"),
    ("文化", "文娱"), ("美食", "旅游"), ("自然", "旅游"), ("环保", "政务"),
    ("能源", "政务"), ("航空", "数码"), ("航天", "数码"), ("医疗", "健康"),
    ("养生", "健康"), ("体育", "运动"), ("媒体", "营销"),
    ("其他", "AI")] : List (String × String)).map
    (fun p => (p.1.data, p.2.data))

/-- `HotwordStore._resolve_category` (lines 231-235). -/
def resolve_category (raw : List Char) : List Char :=
  (dlookup categoryAliases (pyStrip (pyLower raw))).getD ("AI".data)

/-- The in-memory state of `HotwordStore`: the ordered category dict, the
category insertion-order list, and the lowercase index. -/
structure Store where
  cats : List (List Char × List (List Char))
  order : List (List Char)
  index : StoreInfo
deriving DecidableEq, Repr

/-- A fresh `HotwordStore` as built by `__init__`. -/
def Store.empty : Store := ⟨[], [], []⟩

/-- Python `str.splitlines` restricted to the line breaks this file format
can contain: LF, CR and CRLF; a trailing break produces no empty last
line. -/
def splitLinesGo : List Char → List Char → Bool → List (List Char)
  | [], acc, _ => if acc = [] then [] else [acc.reverse]
  | c :: rest, acc, afterCR =>
      if c = '\n' then
        if afterCR then splitLinesGo rest [] false
        else acc.reverse :: splitLinesGo rest [] false
      else if c = '\r' then acc.reverse :: splitLinesGo rest [] true
      else splitLinesGo rest (c :: acc) false

def splitLinesPy (cs : List Char) : List (List Char) :=
  splitLinesGo cs [] false

/-- Python `sep.join(parts)`. -/
def joinWith (sep : List Char) : List (List Char) → List Char
  | [] => []
  | [l] => l
  | l :: rest => l ++ sep ++ joinWith sep rest

/-- Is a parse of the tail after the category separator viable for
`hotword_store._LINE_PATTERN`, i.e. does `(.+)]$` match it?  The content
group is everything before the final closing bracket. -/
def lineTailOk (tail : List Char) : Bool :=
  2 ≤ tail.length && tail.getLast? = some ']'

/-- The lazy group `(.+?)` of `hotword_store._LINE_PATTERN`: scan for the
first position, after at least one category character, where the literal
separator occurs and the rest of the line still matches; on failure the
lazy group extends by one character, which this scan mirrors. -/
def findCatSplit : List Char → List Char → Option (List Char × List Char)
  | _, [] => none
  | accRev, c :: rest =>
      if c = '】' ∧ rest.take 2 = [':', '['] ∧ accRev ≠ [] ∧
          lineTailOk (rest.drop 2) then
        some (accRev.reverse, (rest.drop 2).dropLast)
      else findCatSplit (c :: accRev) rest

/-- `hotword_store._LINE_PATTERN.match(line)`: the line must start with
the opening lenticular bracket; the result is the category name and the
raw comma-joined content. -/
def parseLine (line : List Char) : Option (List Char × List Char) :=
  match line with
  | '【' :: rest => findCatSplit [] rest
  | _ => none

/-- `words_str.split(",")` followed by per-word strip and the drop of
blank words (`HotwordStore.load`, line 153). -/
def wordsOfContent (content : List Char) : List (List Char) :=
  ((content.splitOn ',').map pyStrip).filter (fun w => w ≠ [])

/-- One iteration of the line loop of `HotwordStore.load` (lines 145-157). -/
def loadLine (s : Store) (rawLine : List Char) : Store :=
  let line := pyStrip rawLine
  if line = [] then s
  else
    match parseLine line with
    | none => s
    | some pc =>
        let words := wordsOfContent pc.2
        { cats := dinsert pc.1 words s.cats
          order := s.order ++ [pc.1]
          index := words.foldl
            (fun ix w => dinsert (pyLower w) (w, pc.1) ix) s.index }

/-- `HotwordStore.load` applied to the text of an existing file
(lines 144-157). -/
def loadText (s : Store) (text : List Char) : Store :=
  (splitLinesPy text).foldl loadLine s

/-- One iteration of `HotwordStore.add_words` (lines 184-204). -/
def addWord (s : Store) (item : TermDict) : Store :=
  let term := pyStrip item.term
  if term = [] then s
  else if (dlookup s.index (pyLower term)).isSome then s
  else
    let rawCat := item.category.getD ("其他".data)
    let cat := resolve_category rawCat
    let s' :=
      if (dlookup s.cats cat).isSome then s
      else { s with cats := s.cats ++ [(cat, [])], order := s.order ++ [cat] }
    { cats := dmodify cat (fun ws => ws ++ [term]) s'.cats
      order := s'.order
      index := dinsert (pyLower term) (term, cat) s'.index }

/-- `HotwordStore.add_words` (lines 174-206), ignoring the returned count. -/
def addWords (s : Store) (items : List TermDict) : Store :=
  items.foldl addWord s

/-- One output line of `HotwordStore.save` (line 215). -/
def saveLine (cat : List Char) (ws : List (List Char)) : List Char :=
  '【' :: cat ++ '】' :: ':' :: '[' :: (joinWith [','] ws ++ [']'])

/-- `HotwordStore.save` (lines 208-219): one line per category with at
least one term, in first-seen category order, joined by newlines with one
trailing newline. -/
def saveText (s : Store) : List Char :=
  let lines := s.order.filterMap
    (fun cat =>
      match dlookup s.cats cat with
      | some ws => if ws = [] then none else some (saveLine cat ws)
      | none => none)
  joinWith ['\n'] lines ++ ['\n']

/-- The selection state of `key_pool.KeyPool`: `itertools.cycle` over the
key indices is a counter taken modulo the pool size. -/
def nextKeyIdx (poolSize : Nat) (pos : Nat) : Nat × Nat :=
  (pos % poolSize, pos + 1)

/-- The sequence of key indices produced by consecutive `next_key` calls
(`key_pool.KeyPool.next_key`, lines 33-47; the throttling sleep does not
affect the selection). -/
def runNextKeys (poolSize : Nat) : Nat → Nat → List Nat
  | 0, _ => []
  | n + 1, pos =>
      let step := nextKeyIdx poolSize pos
      step.1 :: runNextKeys poolSize n step.2

/-- The outcome of one attempt of `extractor._process_one_batch`: the
extraction call returns a term list, raises an HTTP 429 error, or raises
any other exception. -/
inductive Outcome where
  | success (terms : List TermDict)
  | rateLimited
  | failure
deriving DecidableEq, Repr

def Outcome.isSuccess : Outcome → Bool
  | .success _ => true
  | _ => false

/-- The observable trace of one `_process_one_batch` call: the returned
term list, the key indices acquired from the pool (one per attempt), the
key indices whose error counters were incremented, and the sleeps
performed, in seconds. -/
structure BatchTrace where
  result : List TermDict
  keysUsed : List Nat
  errorReports : List Nat
  waits : List Nat
deriving DecidableEq, Repr

/-- `extractor._process_one_batch` (lines 147-188) with the attempt loop
unrolled over a fuel argument: `attempt` is the 1-based attempt number,
`fuel` the remaining attempts out of `max_retries = 3`.  A 429 sleeps a
fixed 10 seconds on every attempt; any other exception sleeps
`2 ** attempt` seconds only when another attempt remains; both report the
key error; exhaustion returns the empty list. -/
def processFrom (poolSize : Nat) (oc : Nat → Outcome) :
    Nat → Nat → Nat → BatchTrace
  | 0, _, _ => ⟨[], [], [], []⟩
  | fuel + 1, attempt, pos =>
      let idx := pos % poolSize
      match oc attempt with
      | .success ts => ⟨ts, [idx], [], []⟩
      | .rateLimited =>
          let r := processFrom poolSize oc fuel (attempt + 1) (pos + 1)
          ⟨r.result, idx :: r.keysUsed, idx :: r.errorReports, 10 :: r.waits⟩
      | .failure =>
          let r := processFrom poolSize oc fuel (attempt + 1) (pos + 1)
          ⟨r.result, idx :: r.keysUsed, idx :: r.errorReports,
            (if attempt < 3 then [2 ^ attempt] else []) ++ r.waits⟩

/-- `_process_one_batch` with `max_retries = 3`, starting at the given
cycle position of the key pool. -/
def processOneBatch (poolSize : Nat) (oc : Nat → Outcome) (pos : Nat) :
    BatchTrace :=
  processFrom poolSize oc 3 1 pos

/-- The raw term list of the end-to-end scenario of claim C1. -/
def demoRawC1 : List TermDict :=
  [{ term := ("GPT-5").data }, { term := ("gpt-5").data },
   { term := ("GPTs").data }, { term := ("Claude").data }]

/-- The aggregated list as it is handed to the deduplicator
(`main.run` passes the dicts of `filter_by_frequency` straight through). -/
def demoPipeC1 : List TermDict :=
  (filter_by_frequency (build_frequency_table demoRawC1) 1).map
    (fun e =>
      { term := e.term, category := some e.category,
        frequency := some e.frequency })

/-- C1, counterexample.  On the raw list `GPT-5, gpt-5, GPTs, Claude` with
threshold 1 the aggregator produces three entries, not two, and no entry
reaches frequency 3: the key of `GPTs` is `gpts`, whose singular `gpt`
differs from the key `gpt-5`, so the GPT family is never merged into one
entry. -/
theorem claim1_counterexample :
    (filter_by_frequency (build_frequency_table demoRawC1) 1).length = 3 ∧
    ∀ e ∈ filter_by_frequency (build_frequency_table demoRawC1) 1,
      e.frequency ≠ 3 := by decide

/-- C1, amended.  The pipeline on `GPT-5, gpt-5, GPTs, Claude` with
threshold 1 produces the three entries `GPT-5` (frequency 2, canonical
spelling the first-seen case variant of the tied pair), `GPTs`
(frequency 1) and `Claude` (frequency 1); deduplicating them against the
empty store accepts all three and leaves every skip bucket and the
warning bucket empty. -/
theorem claim1_amended :
    filter_by_frequency (build_frequency_table demoRawC1) 1
      = [⟨("GPT-5").data, 2, ("AI").data⟩,
         ⟨("GPTs").data, 1, ("AI").data⟩,
         ⟨("Claude").data, 1, ("AI").data⟩] ∧
    deduplicate [] (buildBaseNameIndex []) demoPipeC1
      = (demoPipeC1,
         { added := [⟨("GPT-5").data, ("AI").data, 2⟩,
                     ⟨("GPTs").data, ("AI").data, 1⟩,
                     ⟨("Claude").data, ("AI").data, 1⟩]
           skipped_exact := []
           skipped_plural := []
           version_warnings := [] }) := by decide

/-- C2, counterexample.  For the `es` plural pair `boxes` and `box` the
merge depends on arrival order: with the plural first the two keys stay
separate, with the singular first they merge, contradicting the claimed
order independence (the second merge pass only strips a trailing `s`, and
`boxe` is not a key). -/
theorem claim2_counterexample :
    (build_frequency_table
        [{ term := ("boxes").data }, { term := ("box").data }]).map Prod.fst
      = [("boxes").data, ("box").data] ∧
    (build_frequency_table
        [{ term := ("box").data }, { term := ("boxes").data }]).map Prod.fst
      = [("box").data] := by decide

/-- C5.  The four documented examples of `extract_base_name`: the variant
suffix is stripped first, then the trailing version pattern, then the
result is stripped and lowercased. -/
theorem claim5_base_name_examples :
    extract_base_name (("GPT-5.2").data) = ("gpt").data ∧
    extract_base_name (("DeepSeek-V4").data) = ("deepseek").data ∧
    extract_base_name (("Gemini 3 Ultra").data) = ("gemini").data ∧
    extract_base_name (("Claude 4.5 Opus").data) = ("claude").data := by
  decide

/-- The keep-condition of `asr_filter` with the pure-short-Chinese branch
(lines 173-174 of `filter.py`) removed; spec-side definition for the
refinement claim C8. -/
def asrKeepNoDeadBranch (t : TermDict) : Bool :=
  let term := pyStrip t.term
  if term = [] ∨ term.length < 2 then false
  else if commonEnglishWords.contains (pyLower term) then false
  else if commonChineseWords.contains term then false
  else true

/-- `asr_filter` with the dead branch removed (spec-side, claim C8). -/
def asrFilterNoDeadBranch (terms : List TermDict) : List TermDict :=
  terms.filter asrKeepNoDeadBranch

/-- The keep-condition exactly as claim C8 words it: stripped length at
least 2, lowercase not on the common-English list, exact text not on the
common-Chinese list. -/
def asrKeepSpec (t : TermDict) : Bool :=
  2 ≤ (pyStrip t.term).length &&
  !commonEnglishWords.contains (pyLower (pyStrip t.term)) &&
  !commonChineseWords.contains (pyStrip t.term)

theorem asrKeep_eq_noDeadBranch (t : TermDict) :
    asrKeep t = asrKeepNoDeadBranch t := by
  unfold asrKeep asrKeepNoDeadBranch
  by_cases h1 : pyStrip t.term = [] ∨ (pyStrip t.term).length < 2
  · simp [h1]
  · by_cases h2 : pyLower (pyStrip t.term) ∈ commonEnglishWords
    · simp [h1, h2]
    · by_cases h3 : pyStrip t.term ∈ commonChineseWords
      · simp [h1, h2, h3]
      · simp [h1, h2, h3]

theorem asrKeep_eq_spec (t : TermDict) : asrKeep t = asrKeepSpec t := by
  unfold asrKeep asrKeepSpec
  by_cases h1 : pyStrip t.term = [] ∨ (pyStrip t.term).length < 2
  · have hlt : (pyStrip t.term).length < 2 := by
      rcases h1 with h | h
      · simp [h]
      · exact h
    simp [h1, Nat.not_le_of_lt hlt]
  · have hle : 2 ≤ (pyStrip t.term).length := by
      rcases Nat.lt_or_ge (pyStrip t.term).length 2 with h | h
      · exact absurd (Or.inr h) h1
      · exact h
    by_cases h2 : pyLower (pyStrip t.term) ∈ commonEnglishWords
    · simp [h1, h2]
    · by_cases h3 : pyStrip t.term ∈ commonChineseWords
      · simp [h1, h2, h3, hle]
      · simp [h1, h2, h3, hle]

/-- C8.  The pure-short-Chinese branch of `asr_filter` is dead code:
the filter equals the same filter with that branch removed, because the
branch condition requires membership in the common-Chinese list, which
the check directly above it already excluded; consequently the filter
keeps exactly the input terms, in order, whose stripped text has length
at least 2, whose lowercase is not on the common-English list and whose
exact text is not on the common-Chinese list. -/
theorem claim8_asr_dead_branch (terms : List TermDict) :
    asr_filter terms = asrFilterNoDeadBranch terms ∧
    asr_filter terms = terms.filter asrKeepSpec := by
  constructor
  · unfold asr_filter asrFilterNoDeadBranch
    exact List.filter_congr (fun t _ => asrKeep_eq_noDeadBranch t)
  · unfold asr_filter
    exact List.filter_congr (fun t _ => asrKeep_eq_spec t)

theorem runNextKeys_eq (K : Nat) :
    ∀ n pos, runNextKeys K n pos
      = (List.range n).map (fun i => (pos + i) % K) := by
  intro n
  induction n with
  | zero => intro pos; simp [runNextKeys]
  | succ n ih =>
      intro pos
      rw [runNextKeys, nextKeyIdx, List.range_succ_eq_map, List.map_cons,
        List.map_map, ih (pos + 1)]
      refine congrArg₂ _ (by simp) ?_
      apply List.map_congr_left
      intro i _
      have h : pos + 1 + i = pos + Nat.succ i := by omega
      simp [Function.comp, h]

theorem count_mod_range (K q j : Nat) (hK : 0 < K) (hj : j < K) :
    ((List.range (K * q)).map (fun i => i % K)).count j = q := by
  induction q with
  | zero => simp
  | succ q ih =>
      have hmul : K * (q + 1) = K * q + K := by ring
      rw [hmul, List.range_add, List.map_append, List.count_append, ih]
      have hblock : (List.range K).map (fun i => (K * q + i) % K)
          = (List.range K).map id := by
        apply List.map_congr_left
        intro i hi
        have hcomm : K * q + i = i + K * q := by omega
        simp only [id]
        rw [hcomm, Nat.add_mul_mod_self_left]
        exact Nat.mod_eq_of_lt (List.mem_range.mp hi)
      rw [List.map_map]
      have hfun : ((fun i => i % K) ∘ fun x => K * q + x)
          = fun i => (K * q + i) % K := rfl
      rw [hfun, hblock, List.map_id, List.count_eq_one_of_mem
        (List.nodup_range K) (List.mem_range.mpr hj)]

/-- C9.  Round-robin fairness of `KeyPool`: starting from a fresh pool of
`K` keys, after `N` sequential `next_key` calls with `K` dividing `N`,
the key at every index `j` has been selected exactly `N / K` times (the
cycle over `range(len(keys))` visits the indices in order, wrapping). -/
theorem claim9_pool_fairness (K N j : Nat) (hK : 1 ≤ K) (hdvd : K ∣ N)
    (hj : j < K) : (runNextKeys K N 0).count j = N / K := by
  obtain ⟨q, rfl⟩ := hdvd
  rw [runNextKeys_eq]
  have hz : (List.range (K * q)).map (fun i => (0 + i) % K)
      = (List.range (K * q)).map (fun i => i % K) := by
    apply List.map_congr_left
    intro i _
    simp
  rw [hz, Nat.mul_div_cancel_left _ hK]
  exact count_mod_range K q j hK hj

/-- Witness for C9 at a pool of three keys and six calls. -/
theorem claim9_pool_fairness_witness :
    (runNextKeys 3 6 0).count 1 = 6 / 3 :=
  claim9_pool_fairness 3 6 1 (by decide) (by decide) (by decide)

/-- The outcome of `_check` on one stripped candidate, as a pure
classification (spec-side helper for claims C3 and C10). -/
inductive CheckClass where
  | addNew (warn : Option VersionWarn)
  | exactHit (e : ExactSkip)
  | pluralHit (p : PluralSkip)
deriving DecidableEq, Repr

/-- The pure classification behind `checkTerm`: which of the four rules
fires for a stripped candidate, with the data it records. -/
def classifyTerm (info : StoreInfo) (baseIdx : BaseNameIndex)
    (term : List Char) : CheckClass :=
  let lower := pyLower term
  match get_term_info info term with
  | some io => .exactHit ⟨term, io.1, io.2⟩
  | none =>
      match ruleTwoA info term lower with
      | some ps => .pluralHit ps
      | none =>
          match get_term_info info (lower ++ ['s']) with
          | some io => .pluralHit ⟨term, io.1, io.2⟩
          | none => .addNew (ruleFourWarn baseIdx term)

theorem checkTerm_eq_classify (info : StoreInfo) (baseIdx : BaseNameIndex)
    (st : DedupResultS) (term : List Char) (entry : TermDict) :
    checkTerm info baseIdx st term entry =
      match classifyTerm info baseIdx term with
      | .exactHit e =>
          ({ st with skipped_exact := st.skipped_exact ++ [e] }, false)
      | .pluralHit p =>
          ({ st with skipped_plural := st.skipped_plural ++ [p] }, false)
      | .addNew w =>
          ({ st with
              added := st.added ++
                [⟨term, entry.category.getD ("AI".data),
                  entry.frequency.getD 0⟩]
              version_warnings := st.version_warnings ++ w.toList }, true) := by
  cases h1 : get_term_info info term with
  | some io => simp [checkTerm, classifyTerm, h1]
  | none =>
      cases h2 : ruleTwoA info term (pyLower term) with
      | some ps => simp [checkTerm, classifyTerm, h1, h2]
      | none =>
          cases h3 : get_term_info info (pyLower term ++ ['s']) with
          | some io => simp [checkTerm, classifyTerm, h1, h2, h3]
          | none =>
              cases h4 : ruleFourWarn baseIdx term with
              | some w =>
                  simp [checkTerm, classifyTerm, h1, h2, h3, h4,
                    Option.toList]
              | none =>
                  simp [checkTerm, classifyTerm, h1, h2, h3, h4,
                    Option.toList]

/-- C3.  Rule precedence in `_check`: an exact (case-insensitive) hit is
recorded in `skipped_exact` and nowhere else, even when the plural rule
would also fire, and the call returns a terminal skip; a skip never adds
and never warns; a version warning can only accompany an accepted
candidate. -/
theorem claim3_rule_precedence :
    (∀ (info : StoreInfo) (baseIdx : BaseNameIndex) (st : DedupResultS)
        (term : List Char) (entry : TermDict)
        (io : List Char × List Char),
        get_term_info info term = some io →
        checkTerm info baseIdx st term entry
          = ({ st with
                skipped_exact := st.skipped_exact ++ [⟨term, io.1, io.2⟩] },
             false)) ∧
    (∀ (info : StoreInfo) (baseIdx : BaseNameIndex) (st : DedupResultS)
        (term : List Char) (entry : TermDict),
        (checkTerm info baseIdx st term entry).2 = false →
        (checkTerm info baseIdx st term entry).1.added = st.added ∧
        (checkTerm info baseIdx st term entry).1.version_warnings
          = st.version_warnings) ∧
    (∀ (info : StoreInfo) (baseIdx : BaseNameIndex) (st : DedupResultS)
        (term : List Char) (entry : TermDict),
        (checkTerm info baseIdx st term entry).1.version_warnings
            ≠ st.version_warnings →
        (checkTerm info baseIdx st term entry).2 = true) := by
  refine ⟨?_, ?_, ?_⟩
  · intro info baseIdx st term entry io hio
    rw [checkTerm_eq_classify]
    unfold classifyTerm
    rw [hio]
  · intro info baseIdx st term entry
    rw [checkTerm_eq_classify]
    cases classifyTerm info baseIdx term with
    | addNew w => intro h; exact absurd h (by simp)
    | exactHit e => intro _; exact ⟨rfl, rfl⟩
    | pluralHit p => intro _; exact ⟨rfl, rfl⟩
  · intro info baseIdx st term entry
    rw [checkTerm_eq_classify]
    cases classifyTerm info baseIdx term with
    | addNew w => intro _; rfl
    | exactHit e => intro h; exact absurd rfl h
    | pluralHit p => intro h; exact absurd rfl h

/-- A store index containing both `GPTs` and `GPT`, so the candidate
`GPTs` matches the exact rule and would also match the plural rule. -/
def demoInfoC3 : StoreInfo :=
  [(("gpts").data, (("GPTs").data, ("AI").data)),
   (("gpt").data, (("GPT").data, ("AI").data))]

/-- Witness for C3: the candidate `GPTs` hits the exact rule of
`demoInfoC3` and lands only in the `skipped_exact` bucket. -/
theorem claim3_rule_precedence_witness :
    get_term_info demoInfoC3 (("GPTs").data)
        = some ((("GPTs").data, ("AI").data)) ∧
    checkTerm demoInfoC3 [] emptyDedupResult (("GPTs").data)
        { term := ("GPTs").data }
      = ({ emptyDedupResult with
            skipped_exact :=
              [⟨("GPTs").data, ("GPTs").data, ("AI").data⟩] }, false) :=
  ⟨by decide,
   claim3_rule_precedence.1 demoInfoC3 [] emptyDedupResult (("GPTs").data)
     { term := ("GPTs").data } ((("GPTs").data, ("AI").data)) (by decide)⟩

def CheckClass.isAdd : CheckClass → Bool
  | .addNew _ => true
  | _ => false

/-- Does `deduplicate` keep this candidate: nonempty after strip and
classified as an add. -/
def keepCandidate (info : StoreInfo) (baseIdx : BaseNameIndex)
    (t : TermDict) : Bool :=
  decide (pyStrip t.term ≠ []) &&
  (classifyTerm info baseIdx (pyStrip t.term)).isAdd

/-- The `added` record built from a kept candidate. -/
def addedRecOf (t : TermDict) : AddedEntry :=
  ⟨pyStrip t.term, t.category.getD ("AI".data), t.frequency.getD 0⟩

/-- The `skipped_exact` record a candidate contributes, if any. -/
def exactRecOf (info : StoreInfo) (baseIdx : BaseNameIndex)
    (t : TermDict) : Option ExactSkip :=
  if pyStrip t.term = [] then none
  else
    match classifyTerm info baseIdx (pyStrip t.term) with
    | .exactHit e => some e
    | _ => none

/-- The `skipped_plural` record a candidate contributes, if any. -/
def pluralRecOf (info : StoreInfo) (baseIdx : BaseNameIndex)
    (t : TermDict) : Option PluralSkip :=
  if pyStrip t.term = [] then none
  else
    match classifyTerm info baseIdx (pyStrip t.term) with
    | .pluralHit p => some p
    | _ => none

/-- The `version_warnings` record a candidate contributes, if any. -/
def warnRecOf (info : StoreInfo) (baseIdx : BaseNameIndex)
    (t : TermDict) : Option VersionWarn :=
  if pyStrip t.term = [] then none
  else
    match classifyTerm info baseIdx (pyStrip t.term) with
    | .addNew w => w
    | _ => none

theorem deduplicate_foldl (info : StoreInfo) (baseIdx : BaseNameIndex) :
    ∀ (terms : List TermDict) (acc : List TermDict × DedupResultS),
    terms.foldl (dedupStep info baseIdx) acc
      = (acc.1 ++ terms.filter (keepCandidate info baseIdx),
         { added := acc.2.added ++
             (terms.filter (keepCandidate info baseIdx)).map addedRecOf
           skipped_exact := acc.2.skipped_exact ++
             terms.filterMap (exactRecOf info baseIdx)
           skipped_plural := acc.2.skipped_plural ++
             terms.filterMap (pluralRecOf info baseIdx)
           version_warnings := acc.2.version_warnings ++
             terms.filterMap (warnRecOf info baseIdx) }) := by
  intro terms
  induction terms with
  | nil => intro acc; simp
  | cons t ts ih =>
      intro acc
      rw [List.foldl_cons]
      by_cases hstrip : pyStrip t.term = []
      · have hstep : dedupStep info baseIdx acc t = acc := by
          simp [dedupStep, hstrip]
        rw [hstep, ih]
        simp [keepCandidate, exactRecOf, pluralRecOf, warnRecOf, hstrip]
      · have hstep : dedupStep info baseIdx acc t
            = (if (classifyTerm info baseIdx (pyStrip t.term)).isAdd
                 then acc.1 ++ [t] else acc.1,
               match classifyTerm info baseIdx (pyStrip t.term) with
               | .exactHit e =>
                   { acc.2 with
                     skipped_exact := acc.2.skipped_exact ++ [e] }
               | .pluralHit p =>
                   { acc.2 with
                     skipped_plural := acc.2.skipped_plural ++ [p] }
               | .addNew w =>
                   { acc.2 with
                     added := acc.2.added ++ [addedRecOf t]
                     version_warnings :=
                       acc.2.version_warnings ++ w.toList }) := by
          unfold dedupStep
          rw [if_neg hstrip, checkTerm_eq_classify]
          cases classifyTerm info baseIdx (pyStrip t.term) with
          | addNew w => simp [CheckClass.isAdd, addedRecOf]
          | exactHit e => simp [CheckClass.isAdd]
          | pluralHit p => simp [CheckClass.isAdd]
        rw [hstep, ih]
        cases hcl : classifyTerm info baseIdx (pyStrip t.term) with
        | addNew w =>
            cases w with
            | none =>
                simp [keepCandidate, exactRecOf, pluralRecOf, warnRecOf,
                  hstrip, hcl, CheckClass.isAdd]
            | some v =>
                simp [keepCandidate, exactRecOf, pluralRecOf, warnRecOf,
                  hstrip, hcl, CheckClass.isAdd]
        | exactHit e =>
            simp [keepCandidate, exactRecOf, pluralRecOf, warnRecOf,
              hstrip, hcl, CheckClass.isAdd]
        | pluralHit p =>
            simp [keepCandidate, exactRecOf, pluralRecOf, warnRecOf,
              hstrip, hcl, CheckClass.isAdd]

theorem filterMap_eq_filterMap_filter {α β : Type} (p : α → Bool)
    (f : α → Option β) (h : ∀ a, p a = false → f a = none) :
    ∀ l : List α, l.filterMap f = (l.filter p).filterMap f := by
  intro l
  induction l with
  | nil => rfl
  | cons a l ih =>
      by_cases hp : p a = true
      · simp [List.filter_cons, hp, List.filterMap_cons, ih]
      · have hpf : p a = false := by
          cases hpa : p a
          · rfl
          · exact absurd hpa hp
        simp [List.filter_cons, hpf, List.filterMap_cons, h a hpf, ih]

theorem dedup_count (info : StoreInfo) (baseIdx : BaseNameIndex)
    (terms : List TermDict) :
    ((terms.filter (keepCandidate info baseIdx)).map addedRecOf).length
      + (terms.filterMap (exactRecOf info baseIdx)).length
      + (terms.filterMap (pluralRecOf info baseIdx)).length
    = (terms.filter (fun t => decide (pyStrip t.term ≠ []))).length := by
  induction terms with
  | nil => rfl
  | cons t ts ih =>
      simp only [decide_not, List.length_map] at ih
      by_cases hstrip : pyStrip t.term = []
      · simp only [List.filter_cons, List.filterMap_cons, keepCandidate,
          exactRecOf, pluralRecOf, hstrip, decide_not]
        simp only [List.length_map]
        simp [ih]
      · cases hcl : classifyTerm info baseIdx (pyStrip t.term) with
        | addNew w =>
            simp only [List.filter_cons, List.filterMap_cons, keepCandidate,
              exactRecOf, pluralRecOf, hstrip, hcl, CheckClass.isAdd,
              decide_not, List.length_map]
            simp [hstrip]
            omega
        | exactHit e =>
            simp only [List.filter_cons, List.filterMap_cons, keepCandidate,
              exactRecOf, pluralRecOf, hstrip, hcl, CheckClass.isAdd,
              decide_not, List.length_map]
            simp [hstrip]
            omega
        | pluralHit p =>
            simp only [List.filter_cons, List.filterMap_cons, keepCandidate,
              exactRecOf, pluralRecOf, hstrip, hcl, CheckClass.isAdd,
              decide_not, List.length_map]
            simp [hstrip]
            omega

/-- C10.  Deduplication partition: every candidate with a nonempty
stripped term lands in exactly one of `added`, `skipped_exact`,
`skipped_plural`; version warnings only come from candidates that were
added; blank candidates reach no bucket; and the returned list is exactly
the added candidates in input order (the `added` bucket holds their
stripped projections). -/
theorem claim10_dedup_partition (info : StoreInfo) (baseIdx : BaseNameIndex)
    (terms : List TermDict) :
    (deduplicate info baseIdx terms).1
        = terms.filter (keepCandidate info baseIdx) ∧
    (deduplicate info baseIdx terms).2.added
        = ((deduplicate info baseIdx terms).1).map addedRecOf ∧
    (deduplicate info baseIdx terms).2.skipped_exact
        = terms.filterMap (exactRecOf info baseIdx) ∧
    (deduplicate info baseIdx terms).2.skipped_plural
        = terms.filterMap (pluralRecOf info baseIdx) ∧
    (deduplicate info baseIdx terms).2.version_warnings
        = ((deduplicate info baseIdx terms).1).filterMap
            (warnRecOf info baseIdx) ∧
    (deduplicate info baseIdx terms).2.added.length
        + (deduplicate info baseIdx terms).2.skipped_exact.length
        + (deduplicate info baseIdx terms).2.skipped_plural.length
      = (terms.filter (fun t => decide (pyStrip t.term ≠ []))).length := by
  have hfold := deduplicate_foldl info baseIdx terms ([], emptyDedupResult)
  have hwarn : terms.filterMap (warnRecOf info baseIdx)
      = (terms.filter (keepCandidate info baseIdx)).filterMap
          (warnRecOf info baseIdx) := by
    apply filterMap_eq_filterMap_filter
    intro t ht
    unfold warnRecOf
    by_cases hstrip : pyStrip t.term = []
    · simp [hstrip]
    · unfold keepCandidate at ht
      cases hcl : classifyTerm info baseIdx (pyStrip t.term) with
      | addNew w =>
          rw [hcl] at ht
          simp [CheckClass.isAdd, hstrip] at ht
      | exactHit e => simp [hstrip, hcl]
      | pluralHit p => simp [hstrip, hcl]
  unfold deduplicate
  rw [hfold]
  refine ⟨by simp [emptyDedupResult], by simp [emptyDedupResult],
    by simp [emptyDedupResult], by simp [emptyDedupResult], ?_, ?_⟩
  · simpa [emptyDedupResult] using hwarn
  · simpa [emptyDedupResult] using dedup_count info baseIdx terms

/-- The key indices a batch task acquires when it rotates through the
pool: consecutive positions of the cycle (spec-side, claim C6). -/
def consecutiveKeys (poolSize pos : Nat) : Nat → List Nat
  | 0 => []
  | k + 1 => pos % poolSize :: consecutiveKeys poolSize (pos + 1) k

/-- How many of the first `k` attempts failed (spec-side, claim C6). -/
def countFailures (oc : Nat → Outcome) (k : Nat) : Nat :=
  ((List.range k).map (fun i => i + 1)).countP (fun a => !(oc a).isSuccess)

/-- The sleeps the retry loop performs over the first `k` attempts, in
order: a fixed 10 seconds for every rate-limited attempt, `2 ^ attempt`
seconds for any other failure that still has a retry left, and nothing
after a final non-429 failure (spec-side, claim C6). -/
def waitsSpec (oc : Nat → Outcome) (k : Nat) : List Nat :=
  (List.range k).flatMap
    (fun i =>
      match oc (i + 1) with
      | .success _ => []
      | .rateLimited => [10]
      | .failure => if i + 1 < 3 then [2 ^ (i + 1)] else [])

/-- An outcome oracle on which every attempt raises a non-429 error. -/
def allFailOutcomes : Nat → Outcome := fun _ => Outcome.failure

/-- C6, counterexample.  When all three attempts fail with a non-429
error, the task sleeps 2 and 4 seconds only: the claimed `2 ^ attempt`
backoff does not happen after the third (final) failure, so the waits are
not `[2, 4, 8]`. -/
theorem claim6_counterexample :
    (processOneBatch 2 allFailOutcomes 0).waits = [2, 4] ∧
    (processOneBatch 2 allFailOutcomes 0).waits ≠ [2, 4, 8] := by decide

/-- C6, amended.  A batch task makes at most 3 attempts; each attempt
takes the next key of the pool cycle; every failed attempt increments the
error counter of exactly the key it used; a rate-limited attempt always
sleeps 10 seconds, any other failure sleeps `2 ^ attempt` seconds only
when a retry remains; and if all three attempts fail the task returns the
empty term list (the model is a total function: no exception escapes). -/
theorem claim6_batch_retry_amended (poolSize pos : Nat)
    (oc : Nat → Outcome) :
    (processOneBatch poolSize oc pos).keysUsed.length ≤ 3 ∧
    (processOneBatch poolSize oc pos).keysUsed
      = consecutiveKeys poolSize pos
          (processOneBatch poolSize oc pos).keysUsed.length ∧
    (processOneBatch poolSize oc pos).errorReports
      = (processOneBatch poolSize oc pos).keysUsed.take
          (countFailures oc (processOneBatch poolSize oc pos).keysUsed.length) ∧
    (processOneBatch poolSize oc pos).waits
      = waitsSpec oc (processOneBatch poolSize oc pos).keysUsed.length ∧
    ((∀ a, 1 ≤ a → a ≤ 3 → (oc a).isSuccess = false) →
      (processOneBatch poolSize oc pos).result = []) := by
  rcases h1 : oc 1 with ts1 | _ | _ <;>
    rcases h2 : oc 2 with ts2 | _ | _ <;>
      rcases h3 : oc 3 with ts3 | _ | _ <;>
        refine ⟨?_, ?_, ?_, ?_, ?_⟩ <;>
          first
          | (intro hall
             have e1 := hall 1 (by omega) (by omega)
             have e2 := hall 2 (by omega) (by omega)
             have e3 := hall 3 (by omega) (by omega)
             clear hall
             simp_all [processOneBatch, processFrom, Outcome.isSuccess])
          | simp [processOneBatch, processFrom, h1, h2, h3, consecutiveKeys,
              countFailures, waitsSpec, Outcome.isSuccess, List.range_succ]

/-- Witness for C6: with three non-429 failures the batch returns the
empty list. -/
theorem claim6_batch_retry_witness :
    (processOneBatch 2 allFailOutcomes 0).result = [] :=
  (claim6_batch_retry_amended 2 0 allFailOutcomes).2.2.2.2
    (fun a _ _ => rfl)

theorem ne_of_length_ne {α : Type} {l l' : List α}
    (h : l.length ≠ l'.length) : l ≠ l' :=
  fun he => h (he ▸ rfl)

theorem endswith_concat (c : Char) (l : List Char) :
    endswith [c] (l ++ [c]) = true := by
  unfold endswith
  have h1 : (l ++ [c]).length - [c].length = l.length := by simp
  rw [h1, List.drop_left]
  simp

theorem try_merge_plural_nil (key : List Char) :
    try_merge_plural key [] = none := by
  unfold try_merge_plural
  simp

theorem try_merge_plural_longer (key k0 : List Char) (e : FreqEntry)
    (h0 : key.dropLast ≠ k0) (h1 : key.dropLast.dropLast ≠ k0) :
    try_merge_plural key [(k0, e)] = none := by
  unfold try_merge_plural
  simp [Ne.symm h0, Ne.symm h1]

theorem try_merge_plural_concat_s (ks : List Char) (e : FreqEntry)
    (hlen : 2 ≤ ks.length) :
    try_merge_plural (ks ++ ['s']) [(ks, e)] = some ks := by
  unfold try_merge_plural
  rw [if_pos ⟨endswith_concat 's' ks, by simp; omega⟩]
  rw [List.dropLast_concat]
  simp

theorem mostCommonKey_cinc_pair {α : Type} [DecidableEq α] (k1 k2 : α) :
    mostCommonKey (cinc k2 1 [(k1, 1)]) = some k1 := by
  by_cases h : k1 = k2
  · simp [cinc, h, mostCommonKey]
  · simp [cinc, h, mostCommonKey]

theorem finalize_merged (t0 : List Char) (fr : Nat) (c0 : List Char)
    (c1 c2 S' P' : List Char) :
    finalizeEntry ⟨t0, fr, c0, cinc c2 1 [(c1, 1)], cinc P' 1 [(S', 1)]⟩
      = ⟨S', fr, c1⟩ := by
  unfold finalizeEntry
  rw [mostCommonKey_cinc_pair, mostCommonKey_cinc_pair]
  rfl

theorem secondPassLoop_skip_head (key : List Char) (rest : List (List Char))
    (tbl : FreqTable) (rm : List (List Char))
    (hnolookup : dlookup tbl key.dropLast = none) :
    secondPassLoop (key :: rest) tbl rm = secondPassLoop rest tbl rm := by
  simp only [secondPassLoop]
  split
  · rw [hnolookup]
  · rfl

theorem secondPassLoop_merge_head (key : List Char) (rest : List (List Char))
    (tbl : FreqTable) (rm : List (List Char)) (eSing eSrc : FreqEntry)
    (hcond : endswith ['s'] key = true ∧ 2 < key.length)
    (hsing : dlookup tbl key.dropLast = some eSing)
    (hsrc : dlookup tbl key = some eSrc)
    (hne : key.dropLast ≠ key) :
    secondPassLoop (key :: rest) tbl rm
      = secondPassLoop rest
          (dmodify key.dropLast (fun dst => mergeEntries dst eSrc) tbl)
          (rm ++ [key]) := by
  simp only [secondPassLoop]
  rw [if_pos hcond, hsing, hsrc]
  simp [hne]

/-- C2, amended.  For a singular and a plural raw term whose normalized
keys are `ks` and `ks ++ "s"` (with `ks` of length at least 2),
`build_frequency_table` produces the same single entry for both arrival
orders: keyed by the singular key, frequency 2, canonical spelling the
singular occurrence (first seen of the tied case variants), category the
singular occurrence's vote.  The order independence claimed for plurals
formed by appending `s` holds; for `es` plurals it does not (see the
counterexample). -/
theorem claim2_plural_merge_amended (S P ks : List Char)
    (cs cp : Option (List Char)) (fs fp : Option Nat)
    (hS : pyStrip S ≠ []) (hP : pyStrip P ≠ [])
    (hkS : normalize_term (pyStrip S) = ks)
    (hkP : normalize_term (pyStrip P) = ks ++ ['s'])
    (hlen : 2 ≤ ks.length) :
    build_frequency_table [⟨S, cs, fs⟩, ⟨P, cp, fp⟩]
        = [(ks, ⟨pyStrip S, 2, cs.getD ("AI".data)⟩)] ∧
    build_frequency_table [⟨P, cp, fp⟩, ⟨S, cs, fs⟩]
        = [(ks, ⟨pyStrip S, 2, cs.getD ("AI".data)⟩)] := by
  have hksne : ks ≠ [] := by
    intro h
    rw [h] at hlen
    simp at hlen
  have hkslen : 0 < ks.length := List.length_pos.mpr hksne
  have hne : ks ≠ ks ++ ['s'] := ne_of_length_ne (by simp)
  have hdrop1 : ks.dropLast ≠ ks ++ ['s'] :=
    ne_of_length_ne (by
      simp only [List.length_dropLast, List.length_append,
        List.length_cons, List.length_nil]
      omega)
  have hdrop2 : ks.dropLast.dropLast ≠ ks ++ ['s'] :=
    ne_of_length_ne (by
      simp only [List.length_dropLast, List.length_append,
        List.length_cons, List.length_nil]
      omega)
  have hdropself : ks.dropLast ≠ ks :=
    ne_of_length_ne (by
      simp only [List.length_dropLast]
      omega)
  have hq1 : ¬ ks = ks.dropLast := fun h => hdropself h.symm
  have hq2 : ¬ (ks ++ ['s']) = ks.dropLast := fun h => hdrop1 h.symm
  have hq3 : ¬ (ks ++ ['s']) = ks := fun h => hne h.symm
  constructor
  · -- singular first
    have h1 : firstPassStep [] ⟨S, cs, fs⟩
        = [(ks, ⟨pyStrip S, 1, cs.getD ("AI".data),
            [(cs.getD ("AI".data), 1)], [(pyStrip S, 1)]⟩)] := by
      simp [firstPassStep, hS, hkS, hksne, try_merge_plural_nil, bumpEntry]
    have h2 : firstPassStep [(ks, ⟨pyStrip S, 1, cs.getD ("AI".data),
          [(cs.getD ("AI".data), 1)], [(pyStrip S, 1)]⟩)] ⟨P, cp, fp⟩
        = [(ks, ⟨pyStrip S, 2, cs.getD ("AI".data),
            cinc (cp.getD ("AI".data)) 1 [(cs.getD ("AI".data), 1)],
            cinc (pyStrip P) 1 [(pyStrip S, 1)]⟩)] := by
      simp [firstPassStep, hP, hkP, try_merge_plural_concat_s _ _ hlen,
        bumpEntry]
    have h3 : secondPassLoop [ks]
        [(ks, ⟨pyStrip S, 2, cs.getD ("AI".data),
          cinc (cp.getD ("AI".data)) 1 [(cs.getD ("AI".data), 1)],
          cinc (pyStrip P) 1 [(pyStrip S, 1)]⟩)] []
        = ([(ks, ⟨pyStrip S, 2, cs.getD ("AI".data),
            cinc (cp.getD ("AI".data)) 1 [(cs.getD ("AI".data), 1)],
            cinc (pyStrip P) 1 [(pyStrip S, 1)]⟩)], []) := by
      rw [secondPassLoop_skip_head _ _ _ _ (by simp [hq1])]
      rfl
    unfold build_frequency_table
    rw [List.foldl_cons, List.foldl_cons, List.foldl_nil, h1, h2]
    simp only [List.map_cons, List.map_nil]
    rw [h3]
    simp only [List.foldl_nil, List.map_cons, List.map_nil]
    rw [finalize_merged]
  · -- plural first
    have h1 : firstPassStep [] ⟨P, cp, fp⟩
        = [(ks ++ ['s'], ⟨pyStrip P, 1, cp.getD ("AI".data),
            [(cp.getD ("AI".data), 1)], [(pyStrip P, 1)]⟩)] := by
      simp [firstPassStep, hP, hkP, try_merge_plural_nil, bumpEntry]
    have h2 : firstPassStep [(ks ++ ['s'],
          ⟨pyStrip P, 1, cp.getD ("AI".data),
            [(cp.getD ("AI".data), 1)], [(pyStrip P, 1)]⟩)] ⟨S, cs, fs⟩
        = [(ks ++ ['s'], ⟨pyStrip P, 1, cp.getD ("AI".data),
             [(cp.getD ("AI".data), 1)], [(pyStrip P, 1)]⟩),
           (ks, ⟨pyStrip S, 1, cs.getD ("AI".data),
             [(cs.getD ("AI".data), 1)], [(pyStrip S, 1)]⟩)] := by
      simp [firstPassStep, hS, hkS, hksne,
        try_merge_plural_longer _ _ _ hdrop1 hdrop2, hq3, bumpEntry]
    have h3 : secondPassLoop [ks ++ ['s'], ks]
        [(ks ++ ['s'], ⟨pyStrip P, 1, cp.getD ("AI".data),
           [(cp.getD ("AI".data), 1)], [(pyStrip P, 1)]⟩),
         (ks, ⟨pyStrip S, 1, cs.getD ("AI".data),
           [(cs.getD ("AI".data), 1)], [(pyStrip S, 1)]⟩)] []
        = ([(ks ++ ['s'], ⟨pyStrip P, 1, cp.getD ("AI".data),
             [(cp.getD ("AI".data), 1)], [(pyStrip P, 1)]⟩),
            (ks, mergeEntries
              ⟨pyStrip S, 1, cs.getD ("AI".data),
                [(cs.getD ("AI".data), 1)], [(pyStrip S, 1)]⟩
              ⟨pyStrip P, 1, cp.getD ("AI".data),
                [(cp.getD ("AI".data), 1)], [(pyStrip P, 1)]⟩)],
           [ks ++ ['s']]) := by
      rw [secondPassLoop_merge_head (ks ++ ['s']) [ks] _ []
        (⟨pyStrip S, 1, cs.getD ("AI".data),
          [(cs.getD ("AI".data), 1)], [(pyStrip S, 1)]⟩)
        (⟨pyStrip P, 1, cp.getD ("AI".data),
          [(cp.getD ("AI".data), 1)], [(pyStrip P, 1)]⟩)
        ⟨endswith_concat 's' ks, by simp; omega⟩
        (by rw [List.dropLast_concat]; simp [hq3])
        (by simp)
        (by rw [List.dropLast_concat]; exact hne)]
      rw [List.dropLast_concat]
      simp only [List.nil_append]
      rw [show dmodify ks
          (fun dst => mergeEntries dst
            ⟨pyStrip P, 1, cp.getD ("AI".data),
              [(cp.getD ("AI".data), 1)], [(pyStrip P, 1)]⟩)
          [(ks ++ ['s'], ⟨pyStrip P, 1, cp.getD ("AI".data),
             [(cp.getD ("AI".data), 1)], [(pyStrip P, 1)]⟩),
           (ks, ⟨pyStrip S, 1, cs.getD ("AI".data),
             [(cs.getD ("AI".data), 1)], [(pyStrip S, 1)]⟩)]
        = [(ks ++ ['s'], ⟨pyStrip P, 1, cp.getD ("AI".data),
             [(cp.getD ("AI".data), 1)], [(pyStrip P, 1)]⟩),
           (ks, mergeEntries
             ⟨pyStrip S, 1, cs.getD ("AI".data),
               [(cs.getD ("AI".data), 1)], [(pyStrip S, 1)]⟩
             ⟨pyStrip P, 1, cp.getD ("AI".data),
               [(cp.getD ("AI".data), 1)], [(pyStrip P, 1)]⟩)]
        from by simp [hq3]]
      rw [secondPassLoop_skip_head _ _ _ _ (by simp [hq1, hq2])]
      rfl
    have hmerge : mergeEntries
          ⟨pyStrip S, 1, cs.getD ("AI".data),
            [(cs.getD ("AI".data), 1)], [(pyStrip S, 1)]⟩
          ⟨pyStrip P, 1, cp.getD ("AI".data),
            [(cp.getD ("AI".data), 1)], [(pyStrip P, 1)]⟩
        = ⟨pyStrip S, 2, cs.getD ("AI".data),
            cinc (cp.getD ("AI".data)) 1 [(cs.getD ("AI".data), 1)],
            cinc (pyStrip P) 1 [(pyStrip S, 1)]⟩ := by
      simp [mergeEntries, cadd]
    unfold build_frequency_table
    rw [List.foldl_cons, List.foldl_cons, List.foldl_nil, h1, h2]
    simp only [List.map_cons, List.map_nil]
    rw [h3]
    simp only [List.foldl_cons, List.foldl_nil]
    rw [derase_cons, if_pos rfl]
    simp only [List.map_cons, List.map_nil]
    rw [hmerge, finalize_merged]

/-- Witness for C2 at the pair `LLM`, `LLMs`: both orders yield the single
entry keyed `llm` with frequency 2 and canonical spelling `LLM`. -/
theorem claim2_plural_merge_witness :
    build_frequency_table
        [⟨("LLM").data, none, none⟩, ⟨("LLMs").data, none, none⟩]
      = [(("llm").data, ⟨("LLM").data, 2, ("AI").data⟩)] ∧
    build_frequency_table
        [⟨("LLMs").data, none, none⟩, ⟨("LLM").data, none, none⟩]
      = [(("llm").data, ⟨("LLM").data, 2, ("AI").data⟩)] :=
  claim2_plural_merge_amended (("LLM").data) (("LLMs").data) (("llm").data)
    none none none none (by decide) (by decide) (by decide) (by decide)
    (by decide)

theorem dlookup_eq_none_iff {α β : Type} [DecidableEq α] :
    ∀ (l : List (α × β)) (key : α),
      dlookup l key = none ↔ key ∉ l.map Prod.fst := by
  intro l key
  induction l with
  | nil => simp
  | cons p rest ih =>
      obtain ⟨k, v⟩ := p
      by_cases h : k = key
      · subst h
        simp
      · simp only [dlookup_cons, if_neg h, ih, List.map_cons, List.mem_cons]
        constructor
        · intro hn hor
          rcases hor with h1 | h2
          · exact h h1.symm
          · exact hn h2
        · intro hn h2
          exact hn (Or.inr h2)

theorem dinsert_absent {α β : Type} [DecidableEq α] (key : α) (v : β) :
    ∀ (l : List (α × β)), dlookup l key = none →
      dinsert key v l = l ++ [(key, v)] := by
  intro l
  induction l with
  | nil => intro _; rfl
  | cons p rest ih =>
      obtain ⟨k, w⟩ := p
      intro h
      rw [dlookup_cons] at h
      by_cases hk : k = key
      · rw [if_pos hk] at h
        exact absurd h (by simp)
      · rw [if_neg hk] at h
        simp [dinsert, hk, ih h]

theorem dlookup_append_left_none {α β : Type} [DecidableEq α] (key : α) :
    ∀ (l1 l2 : List (α × β)), dlookup l1 key = none →
      dlookup (l1 ++ l2) key = dlookup l2 key := by
  intro l1 l2
  induction l1 with
  | nil => intro _; rfl
  | cons p rest ih =>
      obtain ⟨k, w⟩ := p
      intro h
      rw [dlookup_cons] at h
      by_cases hk : k = key
      · rw [if_pos hk] at h
        exact absurd h (by simp)
      · rw [if_neg hk] at h
        simp [dlookup_cons, hk, ih h]

theorem joinWith_eq_intercalate (sep : List Char) :
    ∀ ws : List (List Char), joinWith sep ws = sep.intercalate ws := by
  intro ws
  induction ws with
  | nil => simp [joinWith, List.intercalate]
  | cons w rest ih =>
      cases rest with
      | nil => simp [joinWith, List.intercalate]
      | cons w2 rest2 =>
          rw [joinWith]
          rw [ih]
          simp [List.intercalate, List.intersperse_cons_cons, List.flatten]
          simp [List.append_assoc]

theorem filterMap_if_eq_filter_map {α β : Type} (p : α → Bool) (g : α → β) :
    ∀ l : List α,
      l.filterMap (fun a => if p a then some (g a) else none)
        = (l.filter p).map g := by
  intro l
  induction l with
  | nil => rfl
  | cons a rest ih =>
      by_cases h : p a
      · simp [List.filterMap_cons, List.filter_cons, h, ih]
      · simp [List.filterMap_cons, List.filter_cons, h, ih]

theorem pyStrip_of_ends (a b : Char) (mid : List Char)
    (ha : isPyWS a = false) (hb : isPyWS b = false) :
    pyStrip (a :: (mid ++ [b])) = a :: (mid ++ [b]) := by
  unfold pyStrip
  rw [List.dropWhile_cons]
  simp only [ha, Bool.false_eq_true, if_false]
  rw [show (a :: (mid ++ [b])).reverse = b :: (mid.reverse ++ [a]) from by
    simp]
  rw [List.dropWhile_cons]
  simp only [hb, Bool.false_eq_true, if_false]
  simp

theorem splitLinesGo_line (l : List Char)
    (hl : ∀ c ∈ l, c ≠ '\n' ∧ c ≠ '\r') :
    ∀ (rest acc : List Char),
      splitLinesGo (l ++ '\n' :: rest) acc false
        = (acc.reverse ++ l) :: splitLinesGo rest [] false := by
  induction l with
  | nil =>
      intro rest acc
      simp [splitLinesGo]
  | cons c l' ih =>
      intro rest acc
      have hc := hl c (List.mem_cons_self c l')
      have hl' : ∀ x ∈ l', x ≠ '\n' ∧ x ≠ '\r' :=
        fun x hx => hl x (List.mem_cons_of_mem c hx)
      simp only [List.cons_append, splitLinesGo, List.append_eq]
      rw [if_neg hc.1, if_neg hc.2]
      rw [ih hl' rest (c :: acc)]
      simp

theorem splitLinesPy_joinLines (lines : List (List Char))
    (h : ∀ l ∈ lines, ∀ c ∈ l, c ≠ '\n' ∧ c ≠ '\r') :
    splitLinesPy (joinWith ['\n'] lines ++ ['\n'])
      = if lines = [] then [[]] else lines := by
  induction lines with
  | nil => simp [joinWith, splitLinesPy, splitLinesGo]
  | cons l rest ih =>
      cases rest with
      | nil =>
          have hline := splitLinesGo_line l (h l (by simp)) [] []
          simp only [joinWith, splitLinesPy]
          rw [show l ++ ['\n'] = l ++ '\n' :: [] from rfl, hline]
          simp [splitLinesGo]
      | cons r rest' =>
          have hline := splitLinesGo_line l (h l (by simp))
            (joinWith ['\n'] (r :: rest') ++ ['\n']) []
          have hrest : ∀ x ∈ r :: rest', ∀ c ∈ x, c ≠ '\n' ∧ c ≠ '\r' :=
            fun x hx => h x (List.mem_cons_of_mem l hx)
          simp only [joinWith, splitLinesPy] at ih ⊢
          rw [show (l ++ ['\n'] ++ joinWith ['\n'] (r :: rest')) ++ ['\n']
              = l ++ '\n' :: (joinWith ['\n'] (r :: rest') ++ ['\n']) from by
            simp]
          rw [hline, ih hrest]
          simp

theorem joinWith_ne_nil (sep : List Char) (ws : List (List Char))
    (hws : ws ≠ []) (h : ∀ w ∈ ws, w ≠ []) : joinWith sep ws ≠ [] := by
  cases ws with
  | nil => exact absurd rfl hws
  | cons w rest =>
      cases rest with
      | nil => simpa [joinWith] using h w (by simp)
      | cons r rest' =>
          have hw := h w (by simp)
          simp [joinWith, hw]

theorem findCatSplit_sep (cat : List Char) (hcat : '】' ∉ cat) :
    ∀ (accRev tail : List Char), accRev.reverse ++ cat ≠ [] →
      lineTailOk tail = true →
      findCatSplit accRev (cat ++ '】' :: ':' :: '[' :: tail)
        = some (accRev.reverse ++ cat, tail.dropLast) := by
  induction cat with
  | nil =>
      intro accRev tail hne htail
      have hacc : accRev ≠ [] := by
        intro hx
        apply hne
        simp [hx]
      simp only [List.nil_append, findCatSplit]
      simp [hacc, htail]
  | cons c cat' ih =>
      intro accRev tail hne htail
      have hc : c ≠ '】' := fun hx => hcat (hx ▸ List.mem_cons_self c cat')
      simp only [List.cons_append, findCatSplit, List.append_eq]
      rw [if_neg (fun hcond => hc hcond.1)]
      rw [ih (fun hm => hcat (List.mem_cons_of_mem c hm)) (c :: accRev)
        tail (by simp) htail]
      simp

theorem parseLine_saveLine (cat : List Char) (ws : List (List Char))
    (hcat : cat ≠ []) (hcatc : '】' ∉ cat)
    (hws : ws ≠ []) (hwne : ∀ w ∈ ws, w ≠ []) :
    parseLine (saveLine cat ws) = some (cat, joinWith [','] ws) := by
  have hjoin : joinWith [','] ws ≠ [] := joinWith_ne_nil [','] ws hws hwne
  have htail : lineTailOk (joinWith [','] ws ++ [']']) = true := by
    unfold lineTailOk
    have hlen : 1 ≤ (joinWith [','] ws).length := by
      rcases Nat.lt_or_ge (joinWith [','] ws).length 1 with hx | hx
      · interval_cases h : (joinWith [','] ws).length
        · exact absurd (List.length_eq_zero.mp h) hjoin
      · exact hx
    simp [List.getLast?_concat]
    omega
  unfold saveLine parseLine
  show findCatSplit [] (cat ++ '】' :: ':' :: '[' ::
      (joinWith [','] ws ++ [']'])) = some (cat, joinWith [','] ws)
  rw [findCatSplit_sep cat hcatc [] (joinWith [','] ws ++ [']'])
    (by simpa using hcat) htail]
  simp [List.dropLast_concat]

theorem wordsOfContent_joinWith (ws : List (List Char))
    (hne : ws ≠ []) (h : ∀ w ∈ ws, w ≠ [] ∧ pyStrip w = w ∧ ¬ ',' ∈ w) :
    wordsOfContent (joinWith [','] ws) = ws := by
  unfold wordsOfContent
  rw [joinWith_eq_intercalate]
  rw [List.splitOn_intercalate ws ',' (fun l hl => (h l hl).2.2) hne]
  have hmap : ws.map pyStrip = ws := by
    have hx : ws.map pyStrip = ws.map id :=
      List.map_congr_left (fun w hw => (h w hw).2.1)
    simpa using hx
  rw [hmap]
  rw [List.filter_eq_self.mpr]
  intro w hw
  simpa using (h w hw).1

/-- The hypotheses under which one saved line survives the parser
unchanged. -/
def goodLineData (p : List Char × List (List Char)) : Prop :=
  p.1 ≠ [] ∧ '】' ∉ p.1 ∧ (∀ c ∈ p.1, c ≠ '\n' ∧ c ≠ '\r') ∧
  p.2 ≠ [] ∧ ∀ w ∈ p.2,
    w ≠ [] ∧ pyStrip w = w ∧ ¬ ',' ∈ w ∧ ∀ c ∈ w, c ≠ '\n' ∧ c ≠ '\r'

theorem loadLine_saveLine (s : Store) (p : List Char × List (List Char))
    (hgood : goodLineData p) :
    loadLine s (saveLine p.1 p.2)
      = { cats := dinsert p.1 p.2 s.cats
          order := s.order ++ [p.1]
          index := p.2.foldl (fun ix w => dinsert (pyLower w) (w, p.1) ix)
            s.index } := by
  obtain ⟨hc1, hc2, hc3, hw1, hw2⟩ := hgood
  have hshape : saveLine p.1 p.2
      = '【' :: ((p.1 ++ '】' :: ':' :: '[' :: joinWith [','] p.2) ++ [']']) := by
    simp [saveLine]
  have hstrip : pyStrip (saveLine p.1 p.2) = saveLine p.1 p.2 := by
    rw [hshape]
    exact pyStrip_of_ends '【' ']' _ (by decide) (by decide)
  have hne : saveLine p.1 p.2 ≠ [] := by simp [saveLine]
  have hred : loadLine s (saveLine p.1 p.2)
      = { cats := dinsert p.1 (wordsOfContent (joinWith [','] p.2)) s.cats
          order := s.order ++ [p.1]
          index := (wordsOfContent (joinWith [','] p.2)).foldl
            (fun ix w => dinsert (pyLower w) (w, p.1) ix) s.index } := by
    simp only [loadLine]
    rw [hstrip, if_neg hne,
      parseLine_saveLine p.1 p.2 hc1 hc2 hw1 (fun w hw => (hw2 w hw).1)]
  rw [hred, wordsOfContent_joinWith p.2 hw1
    (fun w hw => ⟨(hw2 w hw).1, (hw2 w hw).2.1, (hw2 w hw).2.2.1⟩)]

theorem loadText_saved_lines (ps : List (List Char × List (List Char))) :
    ∀ s : Store, (∀ p ∈ ps, goodLineData p) →
      (∀ p ∈ ps, dlookup s.cats p.1 = none) →
      (ps.map Prod.fst).Nodup →
      ((ps.map (fun p => saveLine p.1 p.2)).foldl loadLine s).cats
          = s.cats ++ ps ∧
      ((ps.map (fun p => saveLine p.1 p.2)).foldl loadLine s).order
          = s.order ++ ps.map Prod.fst := by
  induction ps with
  | nil =>
      intro s _ _ _
      simp
  | cons p rest ih =>
      intro s hgood hfresh hnodup
      simp only [List.map_cons, List.foldl_cons]
      rw [loadLine_saveLine s p (hgood p (by simp))]
      have hcats : dinsert p.1 p.2 s.cats = s.cats ++ [p] := by
        have hx := dinsert_absent p.1 p.2 s.cats (hfresh p (by simp))
        simpa using hx
      rw [hcats]
      have hhead : p.1 ∉ rest.map Prod.fst := by
        have := hnodup
        simp only [List.map_cons, List.nodup_cons] at this
        exact this.1
      have hfresh' : ∀ q ∈ rest, dlookup (s.cats ++ [p]) q.1 = none := by
        intro q hq
        rw [dlookup_append_left_none q.1 s.cats [p]
          (hfresh q (List.mem_cons_of_mem p hq))]
        have hne : p.1 ≠ q.1 := by
          intro hx
          exact hhead (hx ▸ List.mem_map_of_mem Prod.fst hq)
        rw [dlookup_eq_none_iff]
        simp [Ne.symm hne]
      have hrest :=
        ih { cats := s.cats ++ [p], order := s.order ++ [p.1],
             index := p.2.foldl
               (fun ix w => dinsert (pyLower w) (w, p.1) ix) s.index }
          (fun q hq => hgood q (List.mem_cons_of_mem p hq)) hfresh'
          (by
            simp only [List.map_cons, List.nodup_cons] at hnodup
            exact hnodup.2)
      refine ⟨?_, ?_⟩
      · rw [hrest.1]
        simp
      · rw [hrest.2]
        simp

theorem saveLines_eq (cats : List (List Char × List (List Char)))
    (hnodup : (cats.map Prod.fst).Nodup) :
    (cats.map Prod.fst).filterMap
        (fun cat =>
          match dlookup cats cat with
          | some ws => if ws = [] then none else some (saveLine cat ws)
          | none => none)
      = (cats.filter (fun p => p.2 ≠ [])).map
          (fun p => saveLine p.1 p.2) := by
  induction cats with
  | nil => rfl
  | cons p rest ih =>
      obtain ⟨k, ws⟩ := p
      simp only [List.map_cons, List.nodup_cons] at hnodup
      have hcongr : (rest.map Prod.fst).filterMap
          (fun cat =>
            match dlookup ((k, ws) :: rest) cat with
            | some w2 => if w2 = [] then none else some (saveLine cat w2)
            | none => none)
          = (rest.map Prod.fst).filterMap
          (fun cat =>
            match dlookup rest cat with
            | some w2 => if w2 = [] then none else some (saveLine cat w2)
            | none => none) := by
        apply List.filterMap_congr
        intro cat hcat
        have hk : k ≠ cat := by
          intro hx
          exact hnodup.1 (hx ▸ hcat)
        rw [dlookup_cons, if_neg hk]
      have hhead : (match dlookup ((k, ws) :: rest) k with
          | some w2 => if w2 = [] then none else some (saveLine k w2)
          | none => none) = if ws = [] then none else some (saveLine k ws) := by
        simp
      simp only [List.map_cons, List.filterMap_cons, hhead, hcongr,
        ih hnodup.2, List.filter_cons]
      by_cases hws : ws = []
      · simp [hws]
      · simp [hws]

theorem mem_joinWith (c : Char) (sep : List Char) :
    ∀ ws : List (List Char), c ∈ joinWith sep ws →
      c ∈ sep ∨ ∃ w ∈ ws, c ∈ w := by
  intro ws
  induction ws with
  | nil => intro h; simp [joinWith] at h
  | cons w rest ih =>
      cases rest with
      | nil =>
          intro h
          right
          exact ⟨w, by simp, by simpa [joinWith] using h⟩
      | cons r rest' =>
          intro h
          simp only [joinWith, List.mem_append] at h
          rcases h with (h | h) | h
          · exact Or.inr ⟨w, by simp, h⟩
          · exact Or.inl h
          · rcases ih h with h2 | ⟨w2, hw2, hc2⟩
            · exact Or.inl h2
            · exact Or.inr ⟨w2, List.mem_cons_of_mem w hw2, hc2⟩

theorem saveLine_no_breaks (p : List Char × List (List Char))
    (hgood : goodLineData p) :
    ∀ c ∈ saveLine p.1 p.2, c ≠ '\n' ∧ c ≠ '\r' := by
  obtain ⟨hc1, hc2, hc3, hw1, hw2⟩ := hgood
  intro c hc
  have hsplit : c = '【' ∨ c ∈ p.1 ∨ c = '】' ∨ c = ':' ∨ c = '[' ∨
      c ∈ joinWith [','] p.2 ∨ c = ']' := by
    unfold saveLine at hc
    simp only [List.mem_cons, List.mem_append, List.mem_singleton,
      List.not_mem_nil, or_false] at hc
    tauto
  rcases hsplit with h | h | h | h | h | h | h
  · subst h
    exact ⟨by decide, by decide⟩
  · exact hc3 c h
  · subst h
    exact ⟨by decide, by decide⟩
  · subst h
    exact ⟨by decide, by decide⟩
  · subst h
    exact ⟨by decide, by decide⟩
  · rcases mem_joinWith c [','] p.2 h with h2 | ⟨w, hw, hcw⟩
    · simp only [List.mem_singleton] at h2
      subst h2
      exact ⟨by decide, by decide⟩
    · exact (hw2 w hw).2.2.2 c hcw
  · subst h
    exact ⟨by decide, by decide⟩

/-- A store satisfying the hypotheses of claim C4 as stated (no commas,
terms non-blank after stripping) whose term ` x` carries leading
whitespace. -/
def roundtripBadStore : Store :=
  ⟨[(("A").data, [(" x").data])], [("A").data],
   [((" x").data, ((" x").data, ("A").data))]⟩

/-- C4, counterexample.  The store `【A】:[ x]` satisfies the hypotheses of
the claim (its term contains no comma and is non-blank after stripping),
yet saving and reloading strips the term to `x`, so the reloaded
categories differ from the original ones. -/
theorem claim4_counterexample :
    (∀ p ∈ roundtripBadStore.cats, ∀ w ∈ p.2,
      ¬ ',' ∈ w ∧ pyStrip w ≠ []) ∧
    (loadText Store.empty (saveText roundtripBadStore)).cats
      ≠ roundtripBadStore.cats := by decide

/-- C4, amended.  For a store whose order list mirrors its category keys,
whose category names are distinct, nonempty, free of the closing
lenticular bracket and of line breaks, and whose terms are nonempty,
strip-invariant, comma-free and line-break-free, saving and then loading
into a fresh store reproduces exactly the nonempty categories, in order
(empty categories are omitted by `save`). -/
theorem claim4_store_roundtrip_amended (s : Store)
    (horder : s.order = s.cats.map Prod.fst)
    (hnodup : (s.cats.map Prod.fst).Nodup)
    (hgood : ∀ p ∈ s.cats, p.1 ≠ [] ∧ '】' ∉ p.1 ∧
      (∀ c ∈ p.1, c ≠ '\n' ∧ c ≠ '\r') ∧ ∀ w ∈ p.2,
        w ≠ [] ∧ pyStrip w = w ∧ ¬ ',' ∈ w ∧
        ∀ c ∈ w, c ≠ '\n' ∧ c ≠ '\r') :
    (loadText Store.empty (saveText s)).cats
        = s.cats.filter (fun p => p.2 ≠ []) ∧
    (loadText Store.empty (saveText s)).order
        = (s.cats.filter (fun p => p.2 ≠ [])).map Prod.fst := by
  have hlines : saveText s
      = joinWith ['\n'] ((s.cats.filter (fun p => p.2 ≠ [])).map
          (fun p => saveLine p.1 p.2)) ++ ['\n'] := by
    unfold saveText
    rw [horder, saveLines_eq s.cats hnodup]
  have hgoodps : ∀ p ∈ s.cats.filter (fun p => p.2 ≠ []),
      goodLineData p := by
    intro p hp
    have hmem := List.mem_of_mem_filter hp
    have hcond := List.of_mem_filter hp
    obtain ⟨h1, h2, h3, h4⟩ := hgood p hmem
    exact ⟨h1, h2, h3, by simpa using hcond, h4⟩
  have hnobreak : ∀ l ∈ (s.cats.filter (fun p => p.2 ≠ [])).map
      (fun p => saveLine p.1 p.2), ∀ c ∈ l, c ≠ '\n' ∧ c ≠ '\r' := by
    intro l hl
    obtain ⟨p, hp, rfl⟩ := List.mem_map.mp hl
    exact saveLine_no_breaks p (hgoodps p hp)
  have hnodups : ((s.cats.filter (fun p => p.2 ≠ [])).map Prod.fst).Nodup :=
    ((List.filter_sublist s.cats).map Prod.fst).nodup hnodup
  unfold loadText
  rw [hlines, splitLinesPy_joinLines _ hnobreak]
  by_cases hempty : (s.cats.filter (fun p => p.2 ≠ [])).map
      (fun p => saveLine p.1 p.2) = []
  · rw [if_pos hempty]
    have hpsnil : s.cats.filter (fun p => p.2 ≠ []) = [] :=
      List.map_eq_nil.mp hempty
    rw [hpsnil]
    simp [loadLine, pyStrip, Store.empty]
  · rw [if_neg hempty]
    have hfold := loadText_saved_lines (s.cats.filter (fun p => p.2 ≠ []))
      Store.empty hgoodps (fun p _ => rfl) hnodups
    exact ⟨by rw [hfold.1]; rfl, by rw [hfold.2]; rfl⟩

/-- A well-formed store with one empty category, used as the C4 witness. -/
def roundtripGoodStore : Store :=
  ⟨[(("AI").data, [("GPT-5").data, ("Claude").data]), (("编程").data, [])],
   [("AI").data, ("编程").data],
   [(("gpt-5").data, (("GPT-5").data, ("AI").data)),
    (("claude").data, (("Claude").data, ("AI").data))]⟩

/-- Witness for C4: the two-category store round-trips to its nonempty
categories. -/
theorem claim4_store_roundtrip_witness :
    (loadText Store.empty (saveText roundtripGoodStore)).cats
        = roundtripGoodStore.cats.filter (fun p => p.2 ≠ []) ∧
    (loadText Store.empty (saveText roundtripGoodStore)).order
        = (roundtripGoodStore.cats.filter
            (fun p => p.2 ≠ [])).map Prod.fst :=
  claim4_store_roundtrip_amended roundtripGoodStore (by decide) (by decide)
    (by decide)

/-- All (term, category) occurrences across an ordered category dict, in
category-then-position order. -/
def occOf (cats : List (List Char × List (List Char))) :
    List (List Char × List Char) :=
  cats.flatMap (fun p => p.2.map (fun w => (w, p.1)))

/-- All (term, category) occurrences of a store. -/
def occList (s : Store) : List (List Char × List Char) := occOf s.cats

/-- The index entries the occurrences should induce, one per occurrence. -/
def occIndex (s : Store) : StoreInfo :=
  (occList s).map (fun q => (pyLower q.1, (q.1, q.2)))

/-- The bijection invariant of claim C7: the lowercase index holds, up to
order, exactly one entry per term occurrence in the category lists, and
the lowercased occurrences are pairwise distinct. -/
def StoreInv (s : Store) : Prop :=
  s.index.Perm (occIndex s) ∧
  ((occList s).map (fun q => pyLower q.1)).Nodup

/-- C7, counterexample.  Loading the file `【A】:[x,X]` produces a store
whose category list holds two occurrences (`x` and `X`) while the
lowercase index holds a single entry, so the claimed bijection between
occurrences and index entries fails on a reachable state. -/
theorem claim7_counterexample :
    ¬ StoreInv (loadText Store.empty (("【A】:[x,X]").data)) := by
  intro h
  exact absurd h.2 (by decide)

theorem perm_snoc_middle {α : Type} (A B : List α) (x : α) :
    (A ++ x :: B).Perm ((A ++ B) ++ [x]) :=
  List.perm_middle.trans (List.perm_append_singleton x (A ++ B)).symm

theorem foldl_dinsert_fresh (cat : List Char) :
    ∀ (ws : List (List Char)) (ix : StoreInfo),
      (∀ w ∈ ws, dlookup ix (pyLower w) = none) →
      (ws.map pyLower).Nodup →
      ws.foldl (fun acc w => dinsert (pyLower w) (w, cat) acc) ix
        = ix ++ ws.map (fun w => (pyLower w, (w, cat))) := by
  intro ws
  induction ws with
  | nil =>
      intro ix _ _
      simp
  | cons w rest ih =>
      intro ix hfresh hnod
      simp only [List.foldl_cons]
      rw [dinsert_absent (pyLower w) (w, cat) ix (hfresh w (by simp))]
      have hfresh2 : ∀ w2 ∈ rest,
          dlookup (ix ++ [(pyLower w, (w, cat))]) (pyLower w2) = none := by
        intro w2 hw2
        rw [dlookup_append_left_none _ _ _
          (hfresh w2 (List.mem_cons_of_mem w hw2))]
        have hne : pyLower w ≠ pyLower w2 := by
          simp only [List.map_cons, List.nodup_cons] at hnod
          intro hx
          exact hnod.1 (hx ▸ List.mem_map_of_mem pyLower hw2)
        simp [dlookup_cons, hne]
      have hnod2 : (rest.map pyLower).Nodup := by
        simp only [List.map_cons, List.nodup_cons] at hnod
        exact hnod.2
      rw [ih (ix ++ [(pyLower w, (w, cat))]) hfresh2 hnod2]
      simp

theorem occOf_dmodify (cat term : List Char) :
    ∀ cats, (dlookup cats cat).isSome →
      (occOf (dmodify cat (fun ws => ws ++ [term]) cats)).Perm
        (occOf cats ++ [(term, cat)]) := by
  intro cats
  induction cats with
  | nil =>
      intro h
      simp at h
  | cons p rest ih =>
      obtain ⟨k, ws⟩ := p
      intro h
      by_cases hk : k = cat
      · subst hk
        rw [dmodify_cons, if_pos rfl]
        simp only [occOf, List.flatMap_cons, List.map_append, List.map_cons,
          List.map_nil]
        rw [List.append_assoc]
        exact perm_snoc_middle _ _ _
      · rw [dmodify_cons, if_neg hk]
        have hrest : (dlookup rest cat).isSome := by
          rw [dlookup_cons, if_neg hk] at h
          exact h
        simp only [occOf, List.flatMap_cons]
        have hstep := List.Perm.append_left (ws.map (fun w => (w, k)))
          (ih hrest)
        refine hstep.trans ?_
        have heq : ws.map (fun w => (w, k)) ++ (occOf rest ++ [(term, cat)])
            = (ws.map (fun w => (w, k)) ++ occOf rest) ++ [(term, cat)] := by
          rw [List.append_assoc]
        rw [heq]
        exact List.Perm.refl _

theorem index_lookup_none_of_not_occ (s : Store) (hperm : s.index.Perm (occIndex s))
    (k : List Char) (h : k ∉ (occList s).map (fun q => pyLower q.1)) :
    dlookup s.index k = none := by
  rw [dlookup_eq_none_iff]
  intro hk
  apply h
  have hmapperm := hperm.map Prod.fst
  have hmem := hmapperm.mem_iff.mp hk
  have hkeys : (occIndex s).map Prod.fst
      = (occList s).map (fun q => pyLower q.1) := by
    simp only [occIndex, List.map_map]
    rfl
  rw [hkeys] at hmem
  exact hmem

/-- The new-term branch of `add_words` (lines 193-204): resolve the
category, create it if missing, append the term, index it. -/
def addFresh (s : Store) (term cat : List Char) : Store :=
  let s' :=
    if (dlookup s.cats cat).isSome then s
    else { s with cats := s.cats ++ [(cat, [])], order := s.order ++ [cat] }
  { cats := dmodify cat (fun ws => ws ++ [term]) s'.cats
    order := s'.order
    index := dinsert (pyLower term) (term, cat) s'.index }

theorem addWord_eq (s : Store) (t : TermDict) :
    addWord s t =
      if pyStrip t.term = [] then s
      else if (dlookup s.index (pyLower (pyStrip t.term))).isSome then s
      else
        addFresh s (pyStrip t.term)
          (resolve_category (t.category.getD ("其他".data))) := rfl

theorem addFresh_eq_pos (s : Store) (term cat : List Char)
    (hc : (dlookup s.cats cat).isSome) :
    addFresh s term cat
      = { cats := dmodify cat (fun ws => ws ++ [term]) s.cats
          order := s.order
          index := dinsert (pyLower term) (term, cat) s.index } := by
  unfold addFresh
  rw [if_pos hc]

theorem addFresh_eq_neg (s : Store) (term cat : List Char)
    (hc : ¬ (dlookup s.cats cat).isSome) :
    addFresh s term cat
      = { cats := dmodify cat (fun ws => ws ++ [term])
            (s.cats ++ [(cat, [])])
          order := s.order ++ [cat]
          index := dinsert (pyLower term) (term, cat) s.index } := by
  unfold addFresh
  rw [if_neg hc]

theorem addFresh_index (s : Store) (term cat : List Char) :
    (addFresh s term cat).index
      = dinsert (pyLower term) (term, cat) s.index := by
  by_cases hc : (dlookup s.cats cat).isSome
  · rw [addFresh_eq_pos s term cat hc]
  · rw [addFresh_eq_neg s term cat hc]

theorem addFresh_occ (s : Store) (term cat : List Char) :
    (occList (addFresh s term cat)).Perm (occList s ++ [(term, cat)]) := by
  by_cases hc : (dlookup s.cats cat).isSome
  · rw [addFresh_eq_pos s term cat hc]
    exact occOf_dmodify cat term s.cats hc
  · rw [addFresh_eq_neg s term cat hc]
    have hnone : dlookup s.cats cat = none := by
      cases hx : dlookup s.cats cat
      · rfl
      · rw [hx] at hc
        exact absurd rfl hc
    have hsome : (dlookup (s.cats ++ [(cat, [])]) cat).isSome := by
      rw [dlookup_append_left_none cat s.cats _ hnone]
      simp
    have hperm := occOf_dmodify cat term (s.cats ++ [(cat, [])]) hsome
    rw [show occOf (s.cats ++ [(cat, [])]) = occOf s.cats from by
      simp [occOf]] at hperm
    exact hperm

theorem addWord_inv (s : Store) (t : TermDict) (h : StoreInv s) :
    StoreInv (addWord s t) := by
  rw [addWord_eq]
  by_cases h1 : pyStrip t.term = []
  · simpa [h1] using h
  · rw [if_neg h1]
    by_cases h2 : (dlookup s.index (pyLower (pyStrip t.term))).isSome
    · simpa [h2] using h
    · rw [if_neg h2]
      have hkey : dlookup s.index (pyLower (pyStrip t.term)) = none := by
        cases hx : dlookup s.index (pyLower (pyStrip t.term))
        · rfl
        · rw [hx] at h2
          exact absurd rfl h2
      have hkeys : (occIndex s).map Prod.fst
          = (occList s).map (fun q => pyLower q.1) := by
        simp only [occIndex, List.map_map]
        rfl
      have hnotocc : pyLower (pyStrip t.term)
          ∉ (occList s).map (fun q => pyLower q.1) := by
        intro hmem
        have hmem2 : pyLower (pyStrip t.term) ∈ s.index.map Prod.fst :=
          (h.1.map Prod.fst).mem_iff.mpr (by rw [hkeys]; exact hmem)
        exact (dlookup_eq_none_iff s.index _).mp hkey hmem2
      constructor
      · rw [addFresh_index, dinsert_absent _ _ _ hkey]
        have hoccperm := (addFresh_occ s (pyStrip t.term)
          (resolve_category (t.category.getD ("其他".data)))).map
          (fun q => (pyLower q.1, (q.1, q.2)))
        have hoiperm : (occIndex (addFresh s (pyStrip t.term)
            (resolve_category (t.category.getD ("其他".data))))).Perm
            (occIndex s ++ [(pyLower (pyStrip t.term),
              (pyStrip t.term,
               resolve_category (t.category.getD ("其他".data))))]) := by
          have hx := hoccperm
          rw [List.map_append] at hx
          exact hx
        refine List.Perm.trans ?_ hoiperm.symm
        exact List.Perm.append_right _ h.1
      · have hlowperm := (addFresh_occ s (pyStrip t.term)
          (resolve_category (t.category.getD ("其他".data)))).map
          (fun q => pyLower q.1)
        rw [List.map_append] at hlowperm
        rw [hlowperm.nodup_iff]
        rw [List.nodup_append]
        refine ⟨h.2, by simp, ?_⟩
        intro a ha
        simp only [List.map_cons, List.map_nil, List.mem_singleton]
        intro hx
        exact hnotocc (hx ▸ ha)

theorem addWords_inv (s : Store) (items : List TermDict)
    (h : StoreInv s) : StoreInv (addWords s items) := by
  unfold addWords
  induction items generalizing s with
  | nil => exact h
  | cons t rest ih =>
      rw [List.foldl_cons]
      exact ih (addWord s t) (addWord_inv s t h)

/-- The (category, word-list) pair one raw line of a store file
contributes, or nothing when the line is blank or unparseable
(`HotwordStore.load`, lines 145-153). -/
def parsedOfLine (rawLine : List Char) :
    List (List Char × List (List Char)) :=
  match parseLine (pyStrip rawLine) with
  | none => []
  | some pc => [(pc.1, wordsOfContent pc.2)]

/-- All (category, word-list) pairs a store file contributes, in file
order. -/
def parsedOfText (text : List Char) :
    List (List Char × List (List Char)) :=
  (splitLinesPy text).flatMap parsedOfLine

/-- A well-formed store file: no repeated category name and no two words
agreeing case-insensitively.  `load` trusts the file on both points, and
the counterexample shows the invariant genuinely fails without them. -/
def GoodText (text : List Char) : Prop :=
  ((parsedOfText text).map Prod.fst).Nodup ∧
  (((parsedOfText text).flatMap Prod.snd).map pyLower).Nodup

/-- The store states the program puts a `HotwordStore` in: a fresh store,
a fresh store after `load` of a well-formed file, and anything reachable
from those by `add_words` (`save` does not change the state). -/
inductive ReachableStore : Store → Prop where
  | init : ReachableStore Store.empty
  | load (text : List Char) (h : GoodText text) :
      ReachableStore (loadText Store.empty text)
  | add (s : Store) (items : List TermDict) (h : ReachableStore s) :
      ReachableStore (addWords s items)

theorem loadLine_parsed_nil (s : Store) (rawLine : List Char)
    (h : parsedOfLine rawLine = []) : loadLine s rawLine = s := by
  unfold parsedOfLine at h
  by_cases hempty : pyStrip rawLine = []
  · simp [loadLine, hempty]
  · cases hp : parseLine (pyStrip rawLine) with
    | none =>
        simp only [loadLine]
        rw [if_neg hempty, hp]
    | some pc =>
        rw [hp] at h
        simp at h

theorem loadLine_parsed_some (s : Store) (rawLine : List Char)
    (pc : List Char × List Char)
    (hp : parseLine (pyStrip rawLine) = some pc) :
    parsedOfLine rawLine = [(pc.1, wordsOfContent pc.2)] ∧
    loadLine s rawLine
      = { cats := dinsert pc.1 (wordsOfContent pc.2) s.cats
          order := s.order ++ [pc.1]
          index := (wordsOfContent pc.2).foldl
            (fun ix w => dinsert (pyLower w) (w, pc.1) ix) s.index } := by
  have hempty : pyStrip rawLine ≠ [] := by
    intro hx
    rw [hx] at hp
    exact Option.noConfusion hp
  constructor
  · unfold parsedOfLine
    rw [hp]
  · simp only [loadLine]
    rw [if_neg hempty, hp]

theorem occList_snoc (s : Store) (cat : List Char)
    (words : List (List Char)) (ord : List (List Char)) (ix : StoreInfo) :
    occList { cats := s.cats ++ [(cat, words)], order := ord, index := ix }
      = occList s ++ words.map (fun w => (w, cat)) := by
  simp [occList, occOf]

theorem occIndex_snoc (s : Store) (cat : List Char)
    (words : List (List Char)) (ord : List (List Char)) (ix : StoreInfo) :
    occIndex { cats := s.cats ++ [(cat, words)], order := ord, index := ix }
      = occIndex s ++ words.map (fun w => (pyLower w, (w, cat))) := by
  simp [occIndex, occList, occOf, List.map_map, Function.comp_def]

theorem storeInv_snoc (s : Store) (cat : List Char)
    (words : List (List Char)) (hs : StoreInv s)
    (hwN : (words.map pyLower).Nodup)
    (hwF : ∀ w ∈ words, pyLower w ∉ (occList s).map (fun q => pyLower q.1))
    (ord : List (List Char)) :
    StoreInv { cats := s.cats ++ [(cat, words)], order := ord,
               index := s.index
                 ++ words.map (fun w => (pyLower w, (w, cat))) } := by
  constructor
  · rw [occIndex_snoc]
    exact List.Perm.append_right _ hs.1
  · rw [occList_snoc]
    rw [List.map_append, List.nodup_append]
    refine ⟨hs.2, ?_, ?_⟩
    · rw [List.map_map]
      exact hwN
    · intro a ha hb
      rw [List.map_map] at hb
      obtain ⟨w, hw, rfl⟩ := List.mem_map.mp hb
      exact hwF w hw ha

theorem loadLines_inv :
    ∀ (lines : List (List Char)) (s : Store), StoreInv s →
      ((lines.flatMap parsedOfLine).map Prod.fst).Nodup →
      (∀ c ∈ (lines.flatMap parsedOfLine).map Prod.fst,
        dlookup s.cats c = none) →
      (((lines.flatMap parsedOfLine).flatMap Prod.snd).map pyLower).Nodup →
      (∀ w ∈ ((lines.flatMap parsedOfLine).flatMap Prod.snd).map pyLower,
        w ∉ (occList s).map (fun q => pyLower q.1)) →
      StoreInv (lines.foldl loadLine s) := by
  intro lines
  induction lines with
  | nil =>
      intro s hs _ _ _ _
      exact hs
  | cons line rest ih =>
      intro s hs hcN hcF hwN hwF
      rw [List.foldl_cons]
      cases hp : parseLine (pyStrip line) with
      | none =>
          have hnil : parsedOfLine line = [] := by
            unfold parsedOfLine
            rw [hp]
          rw [loadLine_parsed_nil s line hnil]
          rw [List.flatMap_cons, hnil, List.nil_append] at hcN hcF hwN hwF
          exact ih s hs hcN hcF hwN hwF
      | some pc =>
          obtain ⟨hparsed, hload⟩ := loadLine_parsed_some s line pc hp
          rw [List.flatMap_cons, hparsed, List.singleton_append]
            at hcN hcF hwN hwF
          simp only [List.map_cons, List.nodup_cons] at hcN
          obtain ⟨hcnotin, hcN2⟩ := hcN
          rw [List.flatMap_cons, List.map_append, List.nodup_append] at hwN
          obtain ⟨hwN1, hwN2, hwdisj⟩ := hwN
          rw [List.flatMap_cons, List.map_append] at hwF
          have hcatfresh : dlookup s.cats pc.1 = none := by
            apply hcF
            simp
          have hWfresh : ∀ w ∈ wordsOfContent pc.2,
              pyLower w ∉ (occList s).map (fun q => pyLower q.1) := by
            intro w hw
            apply hwF
            rw [List.mem_append]
            exact Or.inl (List.mem_map_of_mem pyLower hw)
          have hcats_eq : dinsert pc.1 (wordsOfContent pc.2) s.cats
              = s.cats ++ [(pc.1, wordsOfContent pc.2)] :=
            dinsert_absent pc.1 (wordsOfContent pc.2) s.cats hcatfresh
          have hindex_eq : (wordsOfContent pc.2).foldl
              (fun ix w => dinsert (pyLower w) (w, pc.1) ix) s.index
              = s.index ++ (wordsOfContent pc.2).map
                  (fun w => (pyLower w, (w, pc.1))) :=
            foldl_dinsert_fresh pc.1 (wordsOfContent pc.2) s.index
              (fun w hw => index_lookup_none_of_not_occ s hs.1 (pyLower w)
                (hWfresh w hw))
              hwN1
          rw [hload, hcats_eq, hindex_eq]
          apply ih
          · exact storeInv_snoc s pc.1 (wordsOfContent pc.2) hs hwN1
              hWfresh (s.order ++ [pc.1])
          · exact hcN2
          · intro c hc
            have hcs : dlookup s.cats c = none := by
              apply hcF
              simp only [List.map_cons, List.mem_cons]
              exact Or.inr hc
            rw [dlookup_append_left_none c s.cats _ hcs]
            have hne : pc.1 ≠ c := by
              intro hx
              exact hcnotin (hx ▸ hc)
            simp [hne]
          · exact hwN2
          · intro w hw
            rw [occList_snoc]
            rw [List.map_append, List.mem_append]
            rintro (hA | hB)
            · refine hwF w ?_ hA
              rw [List.mem_append]
              exact Or.inr hw
            · rw [List.map_map] at hB
              exact hwdisj hB hw

theorem loadText_inv (text : List Char) (h : GoodText text) :
    StoreInv (loadText Store.empty text) := by
  have hinit : StoreInv Store.empty := ⟨List.Perm.refl _, List.nodup_nil⟩
  refine loadLines_inv (splitLinesPy text) Store.empty hinit h.1 ?_ h.2 ?_
  · intro c _
    rfl
  · intro w _
    simp [occList, occOf, Store.empty]

/-- C7, amended.  On well-formed inputs the bijection invariant does hold
of every reachable store state: the lowercase index is, up to order,
exactly one entry per term occurrence in the category lists, and the
lowercased occurrences are pairwise distinct.  Moreover `add_words`
behaves as claimed: a candidate already present case-insensitively is
skipped (the store is unchanged), and an absent candidate whose term
strips to non-blank gains exactly one index entry and exactly one
occurrence, in the alias-resolved category of its reported one. -/
theorem claim7_store_bijection_amended :
    (∀ s : Store, ReachableStore s → StoreInv s) ∧
    (∀ (s : Store) (t : TermDict),
      (dlookup s.index (pyLower (pyStrip t.term))).isSome →
      addWord s t = s) ∧
    (∀ (s : Store) (t : TermDict),
      pyStrip t.term ≠ [] →
      dlookup s.index (pyLower (pyStrip t.term)) = none →
      (addWord s t).index
          = s.index ++ [(pyLower (pyStrip t.term),
              (pyStrip t.term,
               resolve_category (t.category.getD ("其他".data))))] ∧
      (occList (addWord s t)).Perm
        (occList s ++ [(pyStrip t.term,
          resolve_category (t.category.getD ("其他".data)))])) := by
  refine ⟨?_, ?_, ?_⟩
  · intro s h
    induction h with
    | init => exact ⟨List.Perm.refl _, List.nodup_nil⟩
    | load text hg => exact loadText_inv text hg
    | add s items _ ih => exact addWords_inv s items ih
  · intro s t hsome
    rw [addWord_eq]
    by_cases h1 : pyStrip t.term = []
    · rw [if_pos h1]
    · rw [if_neg h1, if_pos hsome]
  · intro s t h1 h2
    have h2x : ¬ (dlookup s.index (pyLower (pyStrip t.term))).isSome := by
      rw [h2]
      simp
    constructor
    · rw [addWord_eq, if_neg h1, if_neg h2x, addFresh_index,
        dinsert_absent _ _ _ h2]
    · rw [addWord_eq, if_neg h1, if_neg h2x]
      exact addFresh_occ s _ _

/-- C7 witness: the amended invariant evaluated on a store loaded from a
concrete well-formed file, and the skip branch of `add_words` on a term
already present there case-insensitively. -/
theorem claim7_store_bijection_amended_witness :
    StoreInv (loadText Store.empty (("【AI模型】:[GPT-5,Claude]").data)) ∧
    addWord (loadText Store.empty (("【AI模型】:[GPT-5,Claude]").data))
        { term := ("gpt-5").data }
      = loadText Store.empty (("【AI模型】:[GPT-5,Claude]").data) :=
  ⟨claim7_store_bijection_amended.1 _
      (ReachableStore.load _ ⟨by decide, by decide⟩),
   claim7_store_bijection_amended.2.1 _ _ (by decide)⟩

end HotwordsLex
